import Mathlib

/-!
Shallow embedding of the keyspace-search core of the `noita-eye-messages`
repository, together with theorems settling the frozen claims about it.

The embedding covers:
* the ARX reference cipher (`src/ciphers/arx.rs`): key data model, the
  per-unit codec transform, worker contexts, keyspace enumeration, key
  wire encoding and decoding, cipher construction;
* the worker partitioning math (`src/utils/threading.rs`);
* the `in` binding specialization of the predicate compiler and the
  coordinator progress math (`src/bin/search.rs`).

Machine integers are modelled as `Nat` with explicit `% 2 ^ w` where the
code relies on wrapping, and fallible or panicking code returns
`Option` / `Except`.
-/

set_option maxRecDepth 4000

namespace NoitaEye

/-- One ARX round of the key: `add`, `rot`, `xor`. The Rust fields are
`u8` (documented ranges 0-255, 0-7, 0-255); they are modelled as `Nat`
with the ranges imposed by hypotheses. Mirrors `ARXRound` in
`src/ciphers/arx.rs`. -/
structure ARXRound where
  add : Nat
  rot : Nat
  xor : Nat
deriving DecidableEq, Repr

/-- Field ranges of a valid ARX round: `add` and `xor` are bytes and
`rot` is a rotation amount in `0..=7`, as documented on `ARXRound`. -/
def ValidRound (r : ARXRound) : Prop :=
  r.add < 256 ∧ r.rot < 8 ∧ r.xor < 256

instance (r : ARXRound) : Decidable (ValidRound r) := by
  unfold ValidRound; infer_instance

/-- Wrapping 8-bit rotate right by `n`: Rust `u8::rotate_right` rotates
by `n % 8`. The low `n % 8` bits move to the top. -/
def rotr8 (b n : Nat) : Nat :=
  b % 2 ^ (n % 8) * 2 ^ (8 - n % 8) + b / 2 ^ (n % 8)

/-- Wrapping 8-bit rotate left by `n`: Rust `u8::rotate_left` rotates by
`n % 8`. The top `n % 8` bits move to the bottom. -/
def rotl8 (b n : Nat) : Nat :=
  b * 2 ^ (n % 8) % 256 + b / 2 ^ (8 - n % 8)

/-- One decrypt round step on a byte, from the `DECRYPT` branch of
`ARXCodecContext::get_output_unchecked`:
`byte = byte.wrapping_add(round.add).rotate_right(round.rot) ^ round.xor`. -/
def decStep (r : ARXRound) (b : Nat) : Nat :=
  rotr8 ((b + r.add) % 256) r.rot ^^^ r.xor

/-- One encrypt round step on a byte, from the encrypt branch of
`ARXCodecContext::get_output_unchecked`:
`byte = (byte ^ round.xor).rotate_left(round.rot).wrapping_sub(round.add)`. -/
def encStep (r : ARXRound) (b : Nat) : Nat :=
  (rotl8 (b ^^^ r.xor) r.rot + 256 - r.add % 256) % 256

/-- Decrypt one unit: iterate the rounds forward
(`self.key.rounds.for_each` in `get_output_unchecked`). -/
def decryptByte (rounds : List ARXRound) (b : Nat) : Nat :=
  rounds.foldl (fun x r => decStep r x) b

/-- Encrypt one unit: iterate the rounds in reverse
(`self.key.rounds.for_each_rev`); `List.foldr` applies the last round
first and the first round last. -/
def encryptByte (rounds : List ARXRound) (b : Nat) : Nat :=
  rounds.foldr (fun r x => encStep r x) b

theorem rotr8_mod_eight (b n : Nat) : rotr8 b (n % 8) = rotr8 b n := by
  unfold rotr8
  rw [Nat.mod_mod_of_dvd n dvd_rfl]

theorem rotl8_mod_eight (b n : Nat) : rotl8 b (n % 8) = rotl8 b n := by
  unfold rotl8
  rw [Nat.mod_mod_of_dvd n dvd_rfl]

theorem rotr8_lt_bounded : ∀ b < 256, ∀ n < 8, rotr8 b n < 256 := by decide

theorem rotr8_lt (b n : Nat) (hb : b < 256) : rotr8 b n < 256 := by
  rw [← rotr8_mod_eight]
  exact rotr8_lt_bounded b hb (n % 8) (Nat.mod_lt _ (by norm_num))

theorem rotl8_lt_bounded : ∀ b < 256, ∀ n < 8, rotl8 b n < 256 := by decide

theorem rotl8_lt (b n : Nat) (hb : b < 256) : rotl8 b n < 256 := by
  rw [← rotl8_mod_eight]
  exact rotl8_lt_bounded b hb (n % 8) (Nat.mod_lt _ (by norm_num))

theorem rotl8_rotr8_bounded : ∀ b < 256, ∀ n < 8, rotl8 (rotr8 b n) n = b := by
  decide

theorem rotl8_rotr8 (b n : Nat) (hb : b < 256) : rotl8 (rotr8 b n) n = b := by
  rw [← rotl8_mod_eight, ← rotr8_mod_eight]
  exact rotl8_rotr8_bounded b hb (n % 8) (Nat.mod_lt _ (by norm_num))

theorem rotr8_rotl8_bounded : ∀ b < 256, ∀ n < 8, rotr8 (rotl8 b n) n = b := by
  decide

theorem rotr8_rotl8 (b n : Nat) (hb : b < 256) : rotr8 (rotl8 b n) n = b := by
  rw [← rotl8_mod_eight, ← rotr8_mod_eight]
  exact rotr8_rotl8_bounded b hb (n % 8) (Nat.mod_lt _ (by norm_num))

theorem decStep_lt (r : ARXRound) (hr : ValidRound r) (b : Nat) :
    decStep r b < 256 := by
  have h1 : rotr8 ((b + r.add) % 256) r.rot < 256 :=
    rotr8_lt _ _ (Nat.mod_lt _ (by norm_num))
  have h2 : r.xor < 256 := hr.2.2
  calc rotr8 ((b + r.add) % 256) r.rot ^^^ r.xor < 2 ^ 8 :=
        Nat.xor_lt_two_pow h1 h2
    _ = 256 := by norm_num

theorem encStep_lt (r : ARXRound) (b : Nat) : encStep r b < 256 :=
  Nat.mod_lt _ (by norm_num)

theorem encStep_decStep (r : ARXRound) (hr : ValidRound r) (b : Nat)
    (hb : b < 256) : encStep r (decStep r b) = b := by
  obtain ⟨ha, hrot, hx⟩ := hr
  unfold encStep decStep
  have h1 : rotr8 ((b + r.add) % 256) r.rot < 256 :=
    rotr8_lt _ _ (Nat.mod_lt _ (by norm_num))
  rw [Nat.xor_cancel_right, rotl8_rotr8 _ _ (Nat.mod_lt _ (by norm_num))]
  omega

theorem decStep_encStep (r : ARXRound) (hr : ValidRound r) (b : Nat)
    (hb : b < 256) : decStep r (encStep r b) = b := by
  obtain ⟨ha, hrot, hx⟩ := hr
  unfold encStep decStep
  have hbx : b ^^^ r.xor < 256 := by
    have := Nat.xor_lt_two_pow (n := 8) hb hx
    simpa using this
  have h1 : rotl8 (b ^^^ r.xor) r.rot < 256 := rotl8_lt _ _ hbx
  have h2 : ((rotl8 (b ^^^ r.xor) r.rot + 256 - r.add % 256) % 256 + r.add) % 256
      = rotl8 (b ^^^ r.xor) r.rot := by omega
  rw [h2, rotr8_rotl8 _ _ hbx, Nat.xor_cancel_right]

theorem decryptByte_cons (r : ARXRound) (rs : List ARXRound) (b : Nat) :
    decryptByte (r :: rs) b = decryptByte rs (decStep r b) := rfl

theorem encryptByte_cons (r : ARXRound) (rs : List ARXRound) (b : Nat) :
    encryptByte (r :: rs) b = encStep r (encryptByte rs b) := rfl

theorem decryptByte_lt (rounds : List ARXRound)
    (hv : ∀ r ∈ rounds, ValidRound r) (b : Nat) (hb : b < 256) :
    decryptByte rounds b < 256 := by
  induction rounds generalizing b with
  | nil => exact hb
  | cons r rs ih =>
      rw [decryptByte_cons]
      exact ih (fun x hx => hv x (List.mem_cons_of_mem _ hx))
        _ (decStep_lt r (hv r (List.mem_cons_self _ _)) b)

theorem encryptByte_lt (rounds : List ARXRound) (b : Nat) (hb : b < 256) :
    encryptByte rounds b < 256 := by
  cases rounds with
  | nil => exact hb
  | cons r rs => exact encStep_lt r _

theorem encrypt_decryptByte (rounds : List ARXRound)
    (hv : ∀ r ∈ rounds, ValidRound r) (b : Nat) (hb : b < 256) :
    encryptByte rounds (decryptByte rounds b) = b := by
  induction rounds generalizing b with
  | nil => rfl
  | cons r rs ih =>
      rw [decryptByte_cons, encryptByte_cons,
        ih (fun x hx => hv x (List.mem_cons_of_mem _ hx)) _
          (decStep_lt r (hv r (List.mem_cons_self _ _)) b)]
      exact encStep_decStep r (hv r (List.mem_cons_self _ _)) b hb

theorem decrypt_encryptByte (rounds : List ARXRound)
    (hv : ∀ r ∈ rounds, ValidRound r) (b : Nat) (hb : b < 256) :
    decryptByte rounds (encryptByte rounds b) = b := by
  induction rounds generalizing b with
  | nil => rfl
  | cons r rs ih =>
      rw [encryptByte_cons, decryptByte_cons,
        decStep_encStep r (hv r (List.mem_cons_self _ _)) _
          (encryptByte_lt rs b hb)]
      exact ih (fun x hx => hv x (List.mem_cons_of_mem _ hx)) b hb

/-- C1: for every ARX key (each round with `add` in `0..=255`, `rot` in
`0..=7`, `xor` in `0..=255`, round count in `1..=8`) and every input
byte, the decrypt direction (iterating rounds forward, computing
`b = ((b + add) ror rot) xor x` with wrapping 8-bit arithmetic) and the
encrypt direction (iterating rounds in reverse, computing
`b = ((b xor x) rol rot) - add`) of the codec per-unit transform are
mutual inverses. -/
theorem arx_codec_byte_roundtrip (rounds : List ARXRound)
    (hv : ∀ r ∈ rounds, ValidRound r)
    (hlen1 : 1 ≤ rounds.length) (hlen8 : rounds.length ≤ 8)
    (b : Nat) (hb : b < 256) :
    encryptByte rounds (decryptByte rounds b) = b ∧
    decryptByte rounds (encryptByte rounds b) = b :=
  ⟨encrypt_decryptByte rounds hv b hb, decrypt_encryptByte rounds hv b hb⟩

/-- Witness for C1 at the concrete two-round key
`[(add 3, rot 1, xor 0), (add 0, rot 0, xor 5)]` and byte 72. -/
theorem arx_codec_byte_roundtrip_witness :
    encryptByte [⟨3, 1, 0⟩, ⟨0, 0, 5⟩] (decryptByte [⟨3, 1, 0⟩, ⟨0, 0, 5⟩] 72) = 72 ∧
    decryptByte [⟨3, 1, 0⟩, ⟨0, 0, 5⟩] (encryptByte [⟨3, 1, 0⟩, ⟨0, 0, 5⟩] 72) = 72 :=
  arx_codec_byte_roundtrip [⟨3, 1, 0⟩, ⟨0, 0, 5⟩] (by decide) (by decide)
    (by decide) 72 (by decide)

/-- Result of `get_worklet_slice::<T>(max_value, worklet_id, worklet_total)`
from `src/utils/threading.rs`, in `usize` arithmetic:
`min = (worklet_id * (max_value + 1)) / worklet_total` and
`max = ((worklet_id + 1) * (max_value + 1)) / worklet_total`, returning
`(min, max - 1)`. When the computed exclusive upper bound `max` is zero,
`max - 1` underflows `usize` and the `T::try_from(..).unwrap()` panics;
a panic is modelled as `none`. (For the in-range arguments used by the
claims, `worklet_id < worklet_total`, both returned values are at most
`max_value ≤ T::MAX`, so `try_from` succeeds.) -/
def getWorkletSlice (maxValue workletId workletTotal : Nat) : Option (Nat × Nat) :=
  let lo := workletId * (maxValue + 1) / workletTotal
  let hi := (workletId + 1) * (maxValue + 1) / workletTotal
  if hi = 0 then none else some (lo, hi - 1)

theorem getWorkletSlice_eq_some (maxValue w W : Nat) (hW1 : 1 ≤ W)
    (hW : W ≤ maxValue + 1) :
    getWorkletSlice maxValue w W =
      some (w * (maxValue + 1) / W, (w + 1) * (maxValue + 1) / W - 1) := by
  have hpos : 1 ≤ (w + 1) * (maxValue + 1) / W := by
    rw [Nat.le_div_iff_mul_le (by omega)]
    calc 1 * W = W := by ring
      _ ≤ maxValue + 1 := hW
      _ = 1 * (maxValue + 1) := by ring
      _ ≤ (w + 1) * (maxValue + 1) := by
          exact Nat.mul_le_mul_right _ (by omega)
  unfold getWorkletSlice
  simp only []
  rw [if_neg (by omega)]

theorem workletLo_monotone (c W : Nat) : Monotone (fun w => w * c / W) :=
  fun _ _ h => Nat.div_le_div_right (Nat.mul_le_mul_right _ h)

/-- C2: for every max value and every worker count `W` in `1..=max+1`,
the per-worker ranges `lo_w = (w * (max + 1)) / W`,
`hi_w = ((w + 1) * (max + 1)) / W - 1` computed by `get_worklet_slice`
partition the closed range `[0, max]` exactly: every `x ≤ max` lies in
exactly the range of one worker `w < W`, no range strays outside
`[0, max]`, and ranges of distinct workers are pairwise disjoint. -/
theorem worklet_slices_partition (maxv W : Nat) (hW1 : 1 ≤ W)
    (hW : W ≤ maxv + 1) :
    (∀ x, x ≤ maxv ↔ ∃ w < W, ∃ lo hi,
        getWorkletSlice maxv w W = some (lo, hi) ∧ lo ≤ x ∧ x ≤ hi) ∧
    (∀ w < W, ∀ w2 < W, w ≠ w2 → ∀ x lo hi lo2 hi2,
        getWorkletSlice maxv w W = some (lo, hi) →
        getWorkletSlice maxv w2 W = some (lo2, hi2) →
        lo ≤ x → x ≤ hi → ¬ (lo2 ≤ x ∧ x ≤ hi2)) := by
  have hcpos : 0 < maxv + 1 := by omega
  have hWpos : 0 < W := hW1
  -- the exclusive upper bound of worker w, for w < W, is at least 1
  have hub_pos : ∀ w, 1 ≤ (w + 1) * (maxv + 1) / W := by
    intro w
    rw [Nat.le_div_iff_mul_le hWpos]
    have : 1 * W ≤ (w + 1) * (maxv + 1) :=
      Nat.mul_le_mul (by omega) (by omega)
    omega
  -- for w < w2, the range of w ends strictly before the range of w2 starts
  have hsep : ∀ w w2, w < w2 → (w + 1) * (maxv + 1) / W - 1 < w2 * (maxv + 1) / W := by
    intro w w2 h
    have hmono : (w + 1) * (maxv + 1) / W ≤ w2 * (maxv + 1) / W :=
      workletLo_monotone (maxv + 1) W (by omega)
    have := hub_pos w
    omega
  constructor
  · intro x
    constructor
    · intro hx
      refine ⟨(W * (x + 1) - 1) / (maxv + 1), ?_, _, _,
        getWorkletSlice_eq_some maxv _ W hW1 hW, ?_, ?_⟩
      · -- the chosen worker index is below W
        have h1 : W * (x + 1) - 1 ≤ W * (maxv + 1) - 1 :=
          Nat.sub_le_sub_right (Nat.mul_le_mul_left _ (by omega)) 1
        have h2 : (W * (maxv + 1) - 1) / (maxv + 1) < W := by
          rw [Nat.div_lt_iff_lt_mul hcpos]
          have : 1 ≤ W * (maxv + 1) := Nat.mul_le_mul hWpos hcpos
          omega
        exact Nat.lt_of_le_of_lt (Nat.div_le_div_right h1) h2
      · -- lo ≤ x
        have h1 : (W * (x + 1) - 1) / (maxv + 1) * (maxv + 1) ≤ W * (x + 1) - 1 :=
          Nat.div_mul_le_self _ _
        have hexp : W * (x + 1) = W * x + W := by ring
        rw [Nat.div_le_iff_le_mul_add_pred hWpos]
        omega
      · -- x ≤ hi
        have hdm := Nat.div_add_mod (W * (x + 1) - 1) (maxv + 1)
        have hmlt : (W * (x + 1) - 1) % (maxv + 1) < (maxv + 1) := Nat.mod_lt _ hcpos
        have hWx : 0 < W * (x + 1) := Nat.mul_pos hWpos (Nat.succ_pos x)
        have h1 : W * (x + 1) ≤ ((W * (x + 1) - 1) / (maxv + 1) + 1) * (maxv + 1) := by
          have : ((W * (x + 1) - 1) / (maxv + 1) + 1) * (maxv + 1)
              = (maxv + 1) * ((W * (x + 1) - 1) / (maxv + 1)) + (maxv + 1) := by ring
          omega
        have h2 : x + 1 ≤ ((W * (x + 1) - 1) / (maxv + 1) + 1) * (maxv + 1) / W := by
          rw [Nat.le_div_iff_mul_le hWpos]
          calc (x + 1) * W = W * (x + 1) := by ring
            _ ≤ _ := h1
        omega
    · rintro ⟨w, hwW, lo, hi, hsl, hlox, hxhi⟩
      rw [getWorkletSlice_eq_some maxv w W hW1 hW] at hsl
      injection hsl with hpair
      injection hpair with hlo hhi
      subst hlo
      subst hhi
      have h1 : (w + 1) * (maxv + 1) / W ≤ W * (maxv + 1) / W :=
        Nat.div_le_div_right (Nat.mul_le_mul_right _ (by omega))
      have h2 : W * (maxv + 1) / W = (maxv + 1) := by
        rw [Nat.mul_div_cancel_left _ hWpos]
      have := hub_pos w
      omega
  · intro w hwW w2 hw2W hne x lo hi lo2 hi2 hsl hsl2 hlox hxhi
    rw [getWorkletSlice_eq_some maxv w W hW1 hW] at hsl
    rw [getWorkletSlice_eq_some maxv w2 W hW1 hW] at hsl2
    injection hsl with hpair
    injection hpair with hlo hhi
    subst hlo
    subst hhi
    injection hsl2 with hpair2
    injection hpair2 with hlo2e hhi2e
    subst hlo2e
    subst hhi2e
    rintro ⟨hlo2, hhi2⟩
    rcases Nat.lt_or_ge w w2 with h | h
    · exact absurd (Nat.lt_of_le_of_lt hxhi (Nat.lt_of_lt_of_le (hsep w w2 h) hlo2)) (by omega)
    · have hlt : w2 < w := by omega
      exact absurd (Nat.lt_of_le_of_lt hhi2 (Nat.lt_of_lt_of_le (hsep w2 w hlt) hlox)) (by omega)

/-- Witness for C2 at `max = 255`, `W = 4` (the spec scenario with
partitions on the first-round add axis). -/
theorem worklet_slices_partition_witness :
    (100 ≤ 255 ↔ ∃ w < 4, ∃ lo hi,
        getWorkletSlice 255 w 4 = some (lo, hi) ∧ lo ≤ 100 ∧ 100 ≤ hi) :=
  (worklet_slices_partition 255 4 (by decide) (by decide)).1 100

/-- Keyspace size of one fully enumerated ARX round,
`KEYS_PER_ROUND = 524288` in `src/ciphers/arx.rs` (256 adds, 256 xors,
8 rots). -/
def KEYS_PER_ROUND : Nat := 524288

/-- ARX worker context (`ARXWorkerContext` in `src/ciphers/arx.rs`):
the round count plus the first-round add slice `[a_min, a_max]`. -/
structure ARXWorkerContext where
  round_count : Nat
  a_min : Nat
  a_max : Nat
deriving DecidableEq, Repr

/-- `ARXWorkerContext::get_total_keys`: zero when `round_count == 0`,
else `((a_max - a_min) + 1) * 2048 * KEYS_PER_ROUND ^ (round_count - 1)`.
The `a_max - a_min` subtraction is on `u8` values: it wraps in a release
build, modelled as `(256 + a_max - a_min) % 256` (a debug build panics on
an empty slice instead; the slices the search constructs are never
empty). The result is an arbitrary-precision `rug::Integer`, modelled as
`Nat`. -/
def ARXWorkerContext.get_total_keys (ctx : ARXWorkerContext) : Nat :=
  if ctx.round_count = 0 then 0
  else ((256 + ctx.a_max - ctx.a_min) % 256 + 1) * 2048
    * KEYS_PER_ROUND ^ (ctx.round_count - 1)

/-- `ARXCipher::get_max_parallelism`. -/
def arxMaxParallelism : Nat := 256

/-- `ARXCipher::create_worker_context_parallel`: builds the worker
context from `get_worker_slice::<u8>(255, worker_id, worker_total)` (the
partitioning function defined as `get_worklet_slice` in
`src/utils/threading.rs`); `none` when the slice computation panics. -/
def createWorkerContextParallel (round_count worker_id worker_total : Nat) :
    Option ARXWorkerContext :=
  (getWorkletSlice 255 worker_id worker_total).map
    (fun s => ⟨round_count, s.1, s.2⟩)

/-- The total keys reported by worker `w` of `W` for an `N`-round ARX
search; zero if the worker context construction panics. -/
def workerTotalKeys (N w W : Nat) : Nat :=
  ((createWorkerContextParallel N w W).map ARXWorkerContext.get_total_keys).getD 0

theorem createWorkerContextParallel_eq (N w W : Nat) (hW1 : 1 ≤ W)
    (hW : W ≤ 256) :
    createWorkerContextParallel N w W =
      some ⟨N, w * 256 / W, (w + 1) * 256 / W - 1⟩ := by
  unfold createWorkerContextParallel
  rw [getWorkletSlice_eq_some 255 w W hW1 (by omega)]
  rfl

theorem workerTotalKeys_eq (N w W : Nat) (hN : 1 ≤ N) (hW1 : 1 ≤ W)
    (hW : W ≤ 256) (hw : w < W) :
    workerTotalKeys N w W =
      ((w + 1) * 256 / W - w * 256 / W) * (2048 * KEYS_PER_ROUND ^ (N - 1)) := by
  unfold workerTotalKeys
  rw [createWorkerContextParallel_eq N w W hW1 hW]
  simp only [Option.map_some', Option.getD_some]
  unfold ARXWorkerContext.get_total_keys
  rw [if_neg (by omega : ¬ N = 0)]
  dsimp only
  have hmono : w * 256 / W ≤ (w + 1) * 256 / W :=
    Nat.div_le_div_right (Nat.mul_le_mul_right _ (by omega))
  have hub1 : 1 ≤ (w + 1) * 256 / W := by
    rw [Nat.le_div_iff_mul_le (by omega)]
    have : 1 * W ≤ (w + 1) * 256 := Nat.mul_le_mul (by omega) (by omega)
    omega
  have hub256 : (w + 1) * 256 / W ≤ 256 := by
    have h1 : (w + 1) * 256 / W ≤ W * 256 / W :=
      Nat.div_le_div_right (Nat.mul_le_mul_right _ (by omega))
    have h2 : W * 256 / W = 256 := by
      rw [Nat.mul_comm, Nat.mul_div_cancel _ (by omega : 0 < W)]
    omega
  have hstrict : w * 256 / W + 1 ≤ (w + 1) * 256 / W := by
    rw [Nat.le_div_iff_mul_le (by omega : 0 < W)]
    have hmul : w * 256 / W * W ≤ w * 256 := Nat.div_mul_le_self _ _
    have hexpand : (w * 256 / W + 1) * W = w * 256 / W * W + W := by ring
    have hexp2 : (w + 1) * 256 = w * 256 + 256 := by ring
    omega
  have hslab : (256 + ((w + 1) * 256 / W - 1) - w * 256 / W) % 256 + 1
      = (w + 1) * 256 / W - w * 256 / W := by
    generalize (w + 1) * 256 / W = A at *
    generalize w * 256 / W = B at *
    omega
  rw [hslab, Nat.mul_assoc]

/-- C3: for every ARX round count `N` in `1..=8` and every worker count
`W` in `1..=256`, the sum over all `W` worker contexts of
`get_total_keys` equals the single-worker total, which equals
`524288 ^ N` (`144115188075855872` for `N = 3`); and `get_total_keys` of
a worker with add slice `[a_min, a_max]` equals
`(a_max - a_min + 1) * 2048 * 524288 ^ (N - 1)`. -/
theorem arx_total_keys_partition_sum (N W : Nat) (hN1 : 1 ≤ N) (hN8 : N ≤ 8)
    (hW1 : 1 ≤ W) (hW : W ≤ 256) :
    (∑ w ∈ Finset.range W, workerTotalKeys N w W) = workerTotalKeys N 0 1 ∧
    workerTotalKeys N 0 1 = 524288 ^ N ∧
    (N = 3 → workerTotalKeys N 0 1 = 144115188075855872) ∧
    (∀ ctx : ARXWorkerContext, ctx.round_count = N →
        ctx.a_min ≤ ctx.a_max → ctx.a_max ≤ 255 →
        ctx.get_total_keys
          = (ctx.a_max - ctx.a_min + 1) * 2048 * 524288 ^ (N - 1)) := by
  have hpow : (524288 : Nat) ^ N = 524288 * 524288 ^ (N - 1) := by
    conv_lhs => rw [show N = (N - 1) + 1 by omega]
    rw [pow_succ, Nat.mul_comm]
  have hsingle : workerTotalKeys N 0 1 = 524288 ^ N := by
    rw [workerTotalKeys_eq N 0 1 hN1 (by norm_num) (by norm_num) (by norm_num)]
    unfold KEYS_PER_ROUND
    norm_num
    omega
  have hsum : (∑ w ∈ Finset.range W, workerTotalKeys N w W) = 524288 ^ N := by
    have hcongr : ∀ w ∈ Finset.range W, workerTotalKeys N w W
        = ((w + 1) * 256 / W - w * 256 / W) * (2048 * KEYS_PER_ROUND ^ (N - 1)) := by
      intro w hw
      exact workerTotalKeys_eq N w W hN1 hW1 hW (Finset.mem_range.mp hw)
    rw [Finset.sum_congr rfl hcongr, ← Finset.sum_mul,
      Finset.sum_range_tsub (workletLo_monotone 256 W)]
    have hW256 : W * 256 / W = 256 := by
      rw [Nat.mul_comm, Nat.mul_div_cancel _ (by omega : 0 < W)]
    rw [Nat.zero_mul, Nat.zero_div, Nat.sub_zero, hW256, hpow]
    unfold KEYS_PER_ROUND
    ring
  refine ⟨by rw [hsum, hsingle], hsingle, fun h3 => by rw [hsingle, h3]; norm_num, ?_⟩
  intro ctx hrc hle h255
  unfold ARXWorkerContext.get_total_keys KEYS_PER_ROUND
  rw [hrc, if_neg (by omega : ¬ N = 0)]
  have : (256 + ctx.a_max - ctx.a_min) % 256 + 1 = ctx.a_max - ctx.a_min + 1 := by
    omega
  rw [this]

/-- Witness for C3 at `N = 3`, `W = 4`. -/
theorem arx_total_keys_partition_sum_witness :
    (∑ w ∈ Finset.range 4, workerTotalKeys 3 w 4) = workerTotalKeys 3 0 1 ∧
    workerTotalKeys 3 0 1 = 524288 ^ 3 ∧
    (3 = 3 → workerTotalKeys 3 0 1 = 144115188075855872) ∧
    (∀ ctx : ARXWorkerContext, ctx.round_count = 3 →
        ctx.a_min ≤ ctx.a_max → ctx.a_max ≤ 255 →
        ctx.get_total_keys
          = (ctx.a_max - ctx.a_min + 1) * 2048 * 524288 ^ (3 - 1)) :=
  arx_total_keys_partition_sum 3 4 (by decide) (by decide) (by decide) (by decide)

/-- The rounds visited, in order, by the triple loop of the
`permute_round!` macro: `add` from `add_min` to `add_max` (outermost),
`xor` over `0..=255`, `rot` over `0..=7` (innermost). -/
def permuteRoundTriples (addMin addMax : Nat) : List ARXRound :=
  (List.range' addMin (addMax + 1 - addMin)).flatMap fun add =>
    (List.range 256).flatMap fun x =>
      (List.range 8).map fun rot => ⟨add, rot, x⟩

/-- The key suffixes (rounds `r` through `r_max`) visited, in order, by
`ARXWorkerContext::permute_additional_round` at recursion depth
`depth = r_max - r + 1`, when the chunk callback always returns true.
Every level other than round 0 enumerates the full `0..=255` add range. -/
def permuteRestKeys : Nat → List (List ARXRound)
  | 0 => [[]]
  | depth + 1 =>
      (permuteRoundTriples 0 255).flatMap fun t =>
        (permuteRestKeys depth).map fun rest => t :: rest

/-- The chunk counts reported by `permute_additional_round` at recursion
depth `depth`, in order, when the chunk callback always returns true:
one `KEYS_PER_ROUND` chunk after each completed innermost round loop. -/
def permuteRestChunks : Nat → List Nat
  | 0 => []
  | 1 => [KEYS_PER_ROUND]
  | depth + 2 =>
      (permuteRoundTriples 0 255).flatMap fun _ => permuteRestChunks (depth + 1)

/-- The keys visited, in order, by
`ARXWorkerContext::permute_keys_interruptible` when the chunk callback
always returns true: nothing for a zero round count, else round 0 over
the worker's add slice with all further rounds fully enumerated (the
`round_count == 1` fast path visits exactly the round-0 triples). -/
def permuteKeys (ctx : ARXWorkerContext) : List (List ARXRound) :=
  if ctx.round_count = 0 then []
  else
    (permuteRoundTriples ctx.a_min ctx.a_max).flatMap fun t =>
      (permuteRestKeys (ctx.round_count - 1)).map fun rest => t :: rest

/-- The chunk counts reported by `permute_keys_interruptible` when the
chunk callback always returns true. For `round_count == 1` the single
chunk is `(a_max - a_min + 1) * 256 * 8` in wrapping `u32` arithmetic
(modelled with the wrap explicit); otherwise one chunk per innermost
add-slab. -/
def permuteChunks (ctx : ARXWorkerContext) : List Nat :=
  if ctx.round_count = 0 then []
  else if ctx.round_count = 1 then
    [((2 ^ 32 + ctx.a_max - ctx.a_min) % 2 ^ 32 + 1) * 256 * 8 % 2 ^ 32]
  else
    (permuteRoundTriples ctx.a_min ctx.a_max).flatMap fun _ =>
      permuteRestChunks (ctx.round_count - 1)

theorem length_flatMap_const {α β : Type} (l : List α) (f : α → List β)
    (n : Nat) (h : ∀ a ∈ l, (f a).length = n) :
    (l.flatMap f).length = l.length * n := by
  induction l with
  | nil => simp
  | cons a t ih =>
      rw [List.flatMap_cons, List.length_append, h a (List.mem_cons_self a t),
        ih (fun x hx => h x (List.mem_cons_of_mem a hx)), List.length_cons]
      ring

theorem flatMap_const_replicate {α β : Type} (l : List α) (n : Nat) (x : β) :
    (l.flatMap fun _ => List.replicate n x) = List.replicate (l.length * n) x := by
  induction l with
  | nil => simp
  | cons a t ih =>
      rw [List.flatMap_cons, ih, ← List.replicate_add]
      congr 1
      rw [List.length_cons]
      ring

theorem permuteRoundTriples_length (addMin addMax : Nat) :
    (permuteRoundTriples addMin addMax).length
      = (addMax + 1 - addMin) * 2048 := by
  unfold permuteRoundTriples
  rw [length_flatMap_const _ _ 2048, List.length_range']
  intro add _
  rw [length_flatMap_const _ _ 8, List.length_range]
  intro x _
  rw [List.length_map, List.length_range]

theorem permuteRestKeys_length (depth : Nat) :
    (permuteRestKeys depth).length = KEYS_PER_ROUND ^ depth := by
  induction depth with
  | zero => rfl
  | succ d ih =>
      show ((permuteRoundTriples 0 255).flatMap fun t =>
        (permuteRestKeys d).map fun rest => t :: rest).length = _
      rw [length_flatMap_const _ _ (KEYS_PER_ROUND ^ d)]
      · rw [permuteRoundTriples_length]
        rw [pow_succ]
        unfold KEYS_PER_ROUND
        ring
      · intro t _
        rw [List.length_map, ih]

theorem permuteKeys_length (ctx : ARXWorkerContext) (hN : 1 ≤ ctx.round_count)
    (hslice : ctx.a_min ≤ ctx.a_max) (h255 : ctx.a_max ≤ 255) :
    (permuteKeys ctx).length = ctx.get_total_keys := by
  unfold permuteKeys
  rw [if_neg (by omega : ¬ ctx.round_count = 0)]
  rw [length_flatMap_const _ _ (KEYS_PER_ROUND ^ (ctx.round_count - 1))]
  · rw [permuteRoundTriples_length]
    unfold ARXWorkerContext.get_total_keys
    rw [if_neg (by omega : ¬ ctx.round_count = 0)]
    have h1 : ctx.a_max + 1 - ctx.a_min = ctx.a_max - ctx.a_min + 1 := by omega
    have h2 : (256 + ctx.a_max - ctx.a_min) % 256 = ctx.a_max - ctx.a_min := by
      omega
    rw [h1, h2, Nat.mul_assoc]
  · intro t _
    rw [List.length_map, permuteRestKeys_length]

theorem permuteRestChunks_eq (d : Nat) :
    permuteRestChunks (d + 1)
      = List.replicate (KEYS_PER_ROUND ^ d) KEYS_PER_ROUND := by
  induction d with
  | zero => rfl
  | succ d ih =>
      show ((permuteRoundTriples 0 255).flatMap fun _ =>
        permuteRestChunks (d + 1)) = _
      rw [ih, flatMap_const_replicate, permuteRoundTriples_length, pow_succ]
      congr 1
      unfold KEYS_PER_ROUND
      ring

theorem permuteChunks_sum (ctx : ARXWorkerContext) (hN : 1 ≤ ctx.round_count)
    (hslice : ctx.a_min ≤ ctx.a_max) (h255 : ctx.a_max ≤ 255) :
    (permuteChunks ctx).sum = ctx.get_total_keys := by
  unfold permuteChunks ARXWorkerContext.get_total_keys
  rw [if_neg (by omega : ¬ ctx.round_count = 0),
    if_neg (by omega : ¬ ctx.round_count = 0)]
  by_cases h1 : ctx.round_count = 1
  · rw [if_pos h1, h1]
    have hwrap : (2 ^ 32 + ctx.a_max - ctx.a_min) % 2 ^ 32
        = ctx.a_max - ctx.a_min := by omega
    have hsmall : (ctx.a_max - ctx.a_min + 1) * 256 * 8 % 2 ^ 32
        = (ctx.a_max - ctx.a_min + 1) * 256 * 8 := by
      apply Nat.mod_eq_of_lt
      have : ctx.a_max - ctx.a_min + 1 ≤ 256 := by omega
      calc (ctx.a_max - ctx.a_min + 1) * 256 * 8 ≤ 256 * 256 * 8 := by
            exact Nat.mul_le_mul_right _ (Nat.mul_le_mul_right _ this)
        _ < 2 ^ 32 := by norm_num
    rw [hwrap, hsmall]
    have h2 : (256 + ctx.a_max - ctx.a_min) % 256 = ctx.a_max - ctx.a_min := by
      omega
    rw [List.sum_cons, List.sum_nil, h2]
    norm_num
    ring
  · rw [if_neg h1]
    have hd : ctx.round_count - 1 = (ctx.round_count - 2) + 1 := by omega
    rw [hd, permuteRestChunks_eq, flatMap_const_replicate,
      permuteRoundTriples_length]
    have h2 : (256 + ctx.a_max - ctx.a_min) % 256 = ctx.a_max - ctx.a_min := by
      omega
    have h3 : ctx.a_max + 1 - ctx.a_min = ctx.a_max - ctx.a_min + 1 := by omega
    have hpow : KEYS_PER_ROUND ^ (ctx.round_count - 2) * KEYS_PER_ROUND
        = KEYS_PER_ROUND ^ (ctx.round_count - 1) := by
      rw [← pow_succ]
      congr 1
      omega
    rw [List.sum_replicate, smul_eq_mul, h2, h3, Nat.mul_assoc, Nat.mul_assoc,
      Nat.mul_assoc, hpow, ← hd]

theorem permuteChunks_le (ctx : ARXWorkerContext)
    (hslice : ctx.a_min ≤ ctx.a_max) (h255 : ctx.a_max ≤ 255) :
    ∀ c ∈ permuteChunks ctx, c ≤ 2 ^ 32 := by
  intro c hc
  unfold permuteChunks at hc
  by_cases h0 : ctx.round_count = 0
  · rw [if_pos h0] at hc
    simp at hc
  · rw [if_neg h0] at hc
    by_cases h1 : ctx.round_count = 1
    · rw [if_pos h1] at hc
      rw [List.mem_singleton] at hc
      subst hc
      exact Nat.le_of_lt (Nat.mod_lt _ (by norm_num))
    · rw [if_neg h1] at hc
      have hd : ctx.round_count - 1 = (ctx.round_count - 2) + 1 := by omega
      rw [hd, permuteRestChunks_eq, flatMap_const_replicate] at hc
      have := List.eq_of_mem_replicate hc
      subst this
      unfold KEYS_PER_ROUND
      norm_num

theorem mem_permuteRoundTriples (addMin addMax : Nat) (t : ARXRound) :
    t ∈ permuteRoundTriples addMin addMax ↔
      addMin ≤ t.add ∧ t.add < addMin + (addMax + 1 - addMin) ∧
        t.rot < 8 ∧ t.xor < 256 := by
  obtain ⟨a, r, x⟩ := t
  unfold permuteRoundTriples
  simp only [List.mem_flatMap, List.mem_map, List.mem_range'_1, List.mem_range]
  constructor
  · rintro ⟨add, ⟨h1, h2⟩, xv, hx, rot, hrot, heq⟩
    injection heq with e1 e2 e3
    subst e1; subst e2; subst e3
    exact ⟨h1, h2, hrot, hx⟩
  · rintro ⟨h1, h2, hrot, hx⟩
    exact ⟨a, ⟨h1, h2⟩, x, hx, r, hrot, rfl⟩

theorem permuteRoundTriples_nodup (addMin addMax : Nat) :
    (permuteRoundTriples addMin addMax).Nodup := by
  unfold permuteRoundTriples
  rw [List.nodup_flatMap]
  constructor
  · intro add _
    rw [List.nodup_flatMap]
    constructor
    · intro x _
      refine List.Nodup.map ?_ (List.nodup_range 8)
      intro r1 r2 h
      injection h
    · refine List.Pairwise.imp ?_ (List.nodup_range 256)
      intro x1 x2 hne t ht1 ht2
      simp only [List.mem_map, List.mem_range] at ht1 ht2
      obtain ⟨r1, _, he1⟩ := ht1
      obtain ⟨r2, _, he2⟩ := ht2
      apply hne
      rw [← he2] at he1
      injection he1
  · refine List.Pairwise.imp ?_ (List.nodup_range' _ _)
    intro a1 a2 hne t ht1 ht2
    simp only [List.mem_flatMap, List.mem_map, List.mem_range] at ht1 ht2
    obtain ⟨x1, _, r1, _, he1⟩ := ht1
    obtain ⟨x2, _, r2, _, he2⟩ := ht2
    apply hne
    rw [← he2] at he1
    injection he1

theorem mem_permuteRestKeys (d : Nat) (k : List ARXRound) :
    k ∈ permuteRestKeys d ↔ k.length = d ∧ ∀ r ∈ k, ValidRound r := by
  induction d generalizing k with
  | zero =>
      show k ∈ [[]] ↔ _
      simp only [List.mem_singleton]
      constructor
      · rintro rfl
        exact ⟨rfl, by intro r hr; cases hr⟩
      · rintro ⟨hlen, _⟩
        exact List.eq_nil_of_length_eq_zero hlen
  | succ d ih =>
      show k ∈ (permuteRoundTriples 0 255).flatMap _ ↔ _
      simp only [List.mem_flatMap, List.mem_map]
      constructor
      · rintro ⟨t, ht, rest, hrest, rfl⟩
        rw [mem_permuteRoundTriples] at ht
        obtain ⟨hlen, hval⟩ := (ih rest).mp hrest
        refine ⟨by simp [hlen], ?_⟩
        intro r hr
        rcases List.mem_cons.mp hr with rfl | hr2
        · exact ⟨by omega, ht.2.2.1, ht.2.2.2⟩
        · exact hval r hr2
      · rintro ⟨hlen, hval⟩
        cases k with
        | nil => simp at hlen
        | cons t rest =>
            refine ⟨t, ?_, rest, ?_, rfl⟩
            · rw [mem_permuteRoundTriples]
              have := hval t (List.mem_cons_self _ _)
              exact ⟨by omega, by have := this.1; omega, this.2.1, this.2.2⟩
            · exact (ih rest).mpr ⟨by simpa using hlen, fun r hr =>
                hval r (List.mem_cons_of_mem _ hr)⟩

theorem permuteRestKeys_nodup (d : Nat) : (permuteRestKeys d).Nodup := by
  induction d with
  | zero => exact List.nodup_singleton _
  | succ d ih =>
      show ((permuteRoundTriples 0 255).flatMap _).Nodup
      rw [List.nodup_flatMap]
      constructor
      · intro t _
        refine List.Nodup.map ?_ ih
        intro k1 k2 h
        injection h
      · refine List.Pairwise.imp ?_ (permuteRoundTriples_nodup 0 255)
        intro t1 t2 hne k hk1 hk2
        simp only [List.mem_map] at hk1 hk2
        obtain ⟨r1, _, he1⟩ := hk1
        obtain ⟨r2, _, he2⟩ := hk2
        apply hne
        rw [← he2] at he1
        injection he1

theorem mem_permuteKeys (ctx : ARXWorkerContext) (hN : 1 ≤ ctx.round_count)
    (hslice : ctx.a_min ≤ ctx.a_max) (k : List ARXRound) :
    k ∈ permuteKeys ctx ↔ ∃ t rest, k = t :: rest ∧
      ctx.a_min ≤ t.add ∧ t.add ≤ ctx.a_max ∧ t.rot < 8 ∧ t.xor < 256 ∧
      rest.length = ctx.round_count - 1 ∧ ∀ r ∈ rest, ValidRound r := by
  unfold permuteKeys
  rw [if_neg (by omega : ¬ ctx.round_count = 0)]
  simp only [List.mem_flatMap, List.mem_map]
  constructor
  · rintro ⟨t, ht, rest, hrest, rfl⟩
    rw [mem_permuteRoundTriples] at ht
    obtain ⟨hlen, hval⟩ := (mem_permuteRestKeys _ rest).mp hrest
    exact ⟨t, rest, rfl, ht.1, by have := ht.2.1; omega, ht.2.2.1, ht.2.2.2,
      hlen, hval⟩
  · rintro ⟨t, rest, rfl, h1, h2, h3, h4, h5, h6⟩
    refine ⟨t, ?_, rest, (mem_permuteRestKeys _ rest).mpr ⟨h5, h6⟩, rfl⟩
    rw [mem_permuteRoundTriples]
    exact ⟨h1, by omega, h3, h4⟩

theorem permuteKeys_nodup (ctx : ARXWorkerContext) :
    (permuteKeys ctx).Nodup := by
  unfold permuteKeys
  by_cases h0 : ctx.round_count = 0
  · rw [if_pos h0]
    exact List.nodup_nil
  · rw [if_neg h0]
    rw [List.nodup_flatMap]
    constructor
    · intro t _
      refine List.Nodup.map ?_ (permuteRestKeys_nodup _)
      intro k1 k2 h
      injection h
    · refine List.Pairwise.imp ?_ (permuteRoundTriples_nodup _ _)
      intro t1 t2 hne k hk1 hk2
      simp only [List.mem_map] at hk1 hk2
      obtain ⟨r1, _, he1⟩ := hk1
      obtain ⟨r2, _, he2⟩ := hk2
      apply hne
      rw [← he2] at he1
      injection he1

/-- C4: for every ARX worker context with round count in `1..=8` and a
non-empty add slice, if the chunk callback always returns true then
`permute_keys_interruptible` invokes the key callback exactly once per
key of the partition (the visited keys are duplicate-free, are exactly
the keys of the partition, and number exactly `get_total_keys`), the
chunk counts sum to exactly `get_total_keys`, and each chunk count is at
most `2 ^ 32`: one chunk of `524288` per innermost add-slab when the
round count exceeds 1, else a single chunk at the end. -/
theorem arx_permute_enumeration (ctx : ARXWorkerContext)
    (hN1 : 1 ≤ ctx.round_count) (hN8 : ctx.round_count ≤ 8)
    (hslice : ctx.a_min ≤ ctx.a_max) (h255 : ctx.a_max ≤ 255) :
    (permuteKeys ctx).length = ctx.get_total_keys ∧
    (permuteKeys ctx).Nodup ∧
    (∀ k, k ∈ permuteKeys ctx ↔ ∃ t rest, k = t :: rest ∧
      ctx.a_min ≤ t.add ∧ t.add ≤ ctx.a_max ∧ t.rot < 8 ∧ t.xor < 256 ∧
      rest.length = ctx.round_count - 1 ∧ ∀ r ∈ rest, ValidRound r) ∧
    (permuteChunks ctx).sum = ctx.get_total_keys ∧
    (∀ c ∈ permuteChunks ctx, c ≤ 2 ^ 32) ∧
    (1 < ctx.round_count → permuteChunks ctx =
      List.replicate ((ctx.a_max - ctx.a_min + 1) * 2048
        * 524288 ^ (ctx.round_count - 2)) 524288) ∧
    (ctx.round_count = 1 → permuteChunks ctx =
      [(ctx.a_max - ctx.a_min + 1) * 2048]) := by
  refine ⟨permuteKeys_length ctx hN1 hslice h255, permuteKeys_nodup ctx,
    fun k => mem_permuteKeys ctx hN1 hslice k,
    permuteChunks_sum ctx hN1 hslice h255, permuteChunks_le ctx hslice h255,
    ?_, ?_⟩
  · intro hgt
    unfold permuteChunks
    rw [if_neg (by omega : ¬ ctx.round_count = 0),
      if_neg (by omega : ¬ ctx.round_count = 1)]
    have hd : ctx.round_count - 1 = (ctx.round_count - 2) + 1 := by omega
    have h3 : ctx.a_max + 1 - ctx.a_min = ctx.a_max - ctx.a_min + 1 := by omega
    rw [hd, permuteRestChunks_eq, flatMap_const_replicate,
      permuteRoundTriples_length, h3]
    rfl
  · intro h1
    unfold permuteChunks
    rw [if_neg (by omega : ¬ ctx.round_count = 0), if_pos h1]
    have hwrap : (2 ^ 32 + ctx.a_max - ctx.a_min) % 2 ^ 32
        = ctx.a_max - ctx.a_min := by omega
    rw [hwrap]
    have hsmall : (ctx.a_max - ctx.a_min + 1) * 256 * 8 % 2 ^ 32
        = (ctx.a_max - ctx.a_min + 1) * 256 * 8 := by
      apply Nat.mod_eq_of_lt
      have hle : ctx.a_max - ctx.a_min + 1 ≤ 256 := by omega
      calc (ctx.a_max - ctx.a_min + 1) * 256 * 8 ≤ 256 * 256 * 8 :=
            Nat.mul_le_mul_right _ (Nat.mul_le_mul_right _ hle)
        _ < 2 ^ 32 := by norm_num
    rw [hsmall]
    have heq : (ctx.a_max - ctx.a_min + 1) * 256 * 8
        = (ctx.a_max - ctx.a_min + 1) * 2048 := by ring
    rw [heq]

/-- Witness for C4 at the concrete context with 2 rounds and add slice
`[3, 5]`. -/
theorem arx_permute_enumeration_witness :
    (permuteKeys ⟨2, 3, 5⟩).length
        = ARXWorkerContext.get_total_keys ⟨2, 3, 5⟩ ∧
    (permuteKeys ⟨2, 3, 5⟩).Nodup ∧
    (∀ k, k ∈ permuteKeys ⟨2, 3, 5⟩ ↔ ∃ t rest, k = t :: rest ∧
      3 ≤ t.add ∧ t.add ≤ 5 ∧ t.rot < 8 ∧ t.xor < 256 ∧
      rest.length = 2 - 1 ∧ ∀ r ∈ rest, ValidRound r) ∧
    (permuteChunks ⟨2, 3, 5⟩).sum
        = ARXWorkerContext.get_total_keys ⟨2, 3, 5⟩ ∧
    (∀ c ∈ permuteChunks ⟨2, 3, 5⟩, c ≤ 2 ^ 32) ∧
    (1 < 2 → permuteChunks ⟨2, 3, 5⟩ =
      List.replicate ((5 - 3 + 1) * 2048 * 524288 ^ (2 - 2)) 524288) ∧
    (2 = 1 → permuteChunks ⟨2, 3, 5⟩ = [(5 - 3 + 1) * 2048]) :=
  arx_permute_enumeration ⟨2, 3, 5⟩ (by decide) (by decide) (by decide)
    (by decide)

/-- An encoded ARX round: three protobuf `uint32` fields, tags 1 (add),
2 (rot), 3 (xor). Mirrors `EncodedARXRound` in `src/ciphers/arx.rs`. -/
structure EncodedARXRound where
  add : Nat
  rot : Nat
  xor : Nat
deriving DecidableEq, Repr

/-- Modelled from the spec: the little-endian base-128 varint encoding
with continuation bit, the protobuf wire primitive used by the `prost`
crate for the `uint32` fields and record lengths of `EncodedARXKey`
(`prost` is an external dependency, not repository code; the spec
describes the format as protobuf-style length-delimited records).
`fuel` bounds the recursion depth; the value shrinks by a factor of 128
per emitted byte, so `fuel = n` is always sufficient and the fallback
base case is unreachable. -/
def varintEncodeAux : Nat → Nat → List Nat
  | 0, n => [n % 128]
  | fuel + 1, n =>
      if n < 128 then [n] else (n % 128 + 128) :: varintEncodeAux fuel (n / 128)

/-- The varint encoding of `n` (see `varintEncodeAux`). -/
def varintEncode (n : Nat) : List Nat :=
  varintEncodeAux n n

/-- Modelled from the spec: varint decoding, returning the decoded value
and the remaining bytes, or `none` on truncated input. -/
def parseVarint : List Nat → Option (Nat × List Nat)
  | [] => none
  | b :: rest =>
      if b < 128 then some (b, rest)
      else (parseVarint rest).map fun vr => (vr.1 * 128 + (b - 128), vr.2)

/-- Modelled from the spec: `prost` encoding of one `uint32` field as
key varint (`tag * 8`, wire type 0) followed by the value varint;
proto3 default (zero) values are skipped. -/
def encodeUint32Field (tag v : Nat) : List Nat :=
  if v = 0 then [] else varintEncode (tag * 8) ++ varintEncode v

/-- Modelled from the spec: the `prost` body of one `EncodedARXRound`
message: its fields in tag order. -/
def encodeRoundBody (r : EncodedARXRound) : List Nat :=
  encodeUint32Field 1 r.add ++ encodeUint32Field 2 r.rot
    ++ encodeUint32Field 3 r.xor

/-- Modelled from the spec: the `prost` encoding of `EncodedARXKey`
(`encode_to_vec`): each round is a length-delimited record with tag 1,
key byte `0x0A`. -/
def encodeKeyBytes (rounds : List EncodedARXRound) : List Nat :=
  rounds.flatMap fun r =>
    10 :: (varintEncode (encodeRoundBody r).length ++ encodeRoundBody r)

/-- `ARXKey::encode_to_buffer`: copy each `ARXRound` into an
`EncodedARXRound` (`u8` to `u32`, values preserved) and protobuf-encode
the resulting `EncodedARXKey`. -/
def encode_to_buffer (rounds : List ARXRound) : List Nat :=
  encodeKeyBytes (rounds.map fun r => ⟨r.add, r.rot, r.xor⟩)

/-- Modelled from the spec: skipping a field of the given wire type
while decoding: varint (0), 64-bit (1), length-delimited (2), 32-bit
(5); any other wire type is a decode error. -/
def skipFieldBytes (wt : Nat) (bs : List Nat) : Option (List Nat) :=
  if wt = 0 then (parseVarint bs).map Prod.snd
  else if wt = 1 then (if 8 ≤ bs.length then some (bs.drop 8) else none)
  else if wt = 2 then
    (parseVarint bs).bind fun lr =>
      if lr.1 ≤ lr.2.length then some (lr.2.drop lr.1) else none
  else if wt = 5 then (if 4 ≤ bs.length then some (bs.drop 4) else none)
  else none

/-- Modelled from the spec: the `prost` merge loop for
`EncodedARXRound`: read a key varint, dispatch on its tag/wire type
(each `uint32` field replaces the accumulator value, truncated to 32
bits; a known tag with the wrong wire type, or tag 0, is a decode
error), skip unknown fields. `fuel` bounds the iterations; every
iteration consumes at least one byte, so `fuel = bytes.length` is always
sufficient. -/
def parseRoundFields : Nat → List Nat → EncodedARXRound →
    Option EncodedARXRound
  | _, [], acc => some acc
  | 0, _ :: _, _ => none
  | fuel + 1, b :: rest, acc =>
      (parseVarint (b :: rest)).bind fun kr =>
        if kr.1 = 8 then
          (parseVarint kr.2).bind fun vr =>
            parseRoundFields fuel vr.2 ⟨vr.1 % 2 ^ 32, acc.rot, acc.xor⟩
        else if kr.1 = 16 then
          (parseVarint kr.2).bind fun vr =>
            parseRoundFields fuel vr.2 ⟨acc.add, vr.1 % 2 ^ 32, acc.xor⟩
        else if kr.1 = 24 then
          (parseVarint kr.2).bind fun vr =>
            parseRoundFields fuel vr.2 ⟨acc.add, acc.rot, vr.1 % 2 ^ 32⟩
        else if kr.1 / 8 = 0 ∨ kr.1 / 8 = 1 ∨ kr.1 / 8 = 2 ∨ kr.1 / 8 = 3 then
          none
        else
          (skipFieldBytes (kr.1 % 8) kr.2).bind fun r2 =>
            parseRoundFields fuel r2 acc

/-- Modelled from the spec: the `prost` merge loop for `EncodedARXKey`:
its single field is the repeated message field `rounds` (tag 1, wire
type 2, key byte 10); each record is decoded as an `EncodedARXRound`
starting from the default value and appended in order. -/
def parseKeyFields : Nat → List Nat → List EncodedARXRound →
    Option (List EncodedARXRound)
  | _, [], acc => some acc
  | 0, _ :: _, _ => none
  | fuel + 1, b :: rest, acc =>
      (parseVarint (b :: rest)).bind fun kr =>
        if kr.1 = 10 then
          (parseVarint kr.2).bind fun lr =>
            if lr.1 ≤ lr.2.length then
              (parseRoundFields (lr.2.take lr.1).length (lr.2.take lr.1)
                  ⟨0, 0, 0⟩).bind fun round =>
                parseKeyFields fuel (lr.2.drop lr.1) (acc ++ [round])
            else none
        else if kr.1 / 8 = 0 ∨ kr.1 / 8 = 1 then none
        else
          (skipFieldBytes (kr.1 % 8) kr.2).bind fun r2 =>
            parseKeyFields fuel r2 acc

/-- Modelled from the spec: `EncodedARXKey::decode` via `prost`. -/
def decodeEncodedARXKey (buf : List Nat) : Option (List EncodedARXRound) :=
  parseKeyFields buf.length buf []

/-- Decoding errors of `ARXKey::from_buffer`: the propagated `prost`
decode error, the explicit max-round-count check, and the `u32` to `u8`
`try_into` conversion error. -/
inductive KeyDecodeError where
  | decodeFailure
  | maxRoundsExceeded
  | fieldOutOfRange
deriving DecidableEq, Repr

/-- `ARXKey::from_buffer`: protobuf-decode the buffer, reject more than
`MAX_ROUNDS = 8` rounds, then convert each round's `u32` fields to `u8`
(failing when a value exceeds 255). No range check is performed on
`rot` beyond fitting in a `u8`. -/
def from_buffer (buf : List Nat) : Except KeyDecodeError (List ARXRound) :=
  match decodeEncodedARXKey buf with
  | none => .error .decodeFailure
  | some encRounds =>
      if 8 < encRounds.length then .error .maxRoundsExceeded
      else if h : ∀ r ∈ encRounds, r.add < 256 ∧ r.rot < 256 ∧ r.xor < 256
      then .ok (encRounds.map fun r => ⟨r.add, r.rot, r.xor⟩)
      else .error .fieldOutOfRange

/-- The `ToString` impl of `ARXKey`: nonzero components of each round
are rendered as `a{add}`, `r{rot}`, `x{xor}` parts, joined by arrows
inside brackets; a key with no nonzero component renders as the no-op
key. -/
def keyToString (rounds : List ARXRound) : String :=
  let parts := rounds.flatMap fun r =>
    (if r.add ≠ 0 then ["a" ++ toString r.add] else []) ++
    (if r.rot ≠ 0 then ["r" ++ toString r.rot] else []) ++
    (if r.xor ≠ 0 then ["x" ++ toString r.xor] else [])
  if parts.length = 0 then "[no-op key]"
  else "[" ++ String.intercalate "->" parts ++ "]"

theorem parseVarint_varintEncodeAux (f : Nat) :
    ∀ n ≤ f, ∀ rest : List Nat,
      parseVarint (varintEncodeAux f n ++ rest) = some (n, rest) := by
  induction f with
  | zero =>
      intro n hn rest
      have h0 : n = 0 := by omega
      subst h0
      rfl
  | succ f ih =>
      intro n hn rest
      by_cases h : n < 128
      · show parseVarint ((if n < 128 then [n]
          else (n % 128 + 128) :: varintEncodeAux f (n / 128)) ++ rest) = _
        rw [if_pos h]
        show parseVarint (n :: rest) = _
        unfold parseVarint
        rw [if_pos h]
      · show parseVarint ((if n < 128 then [n]
          else (n % 128 + 128) :: varintEncodeAux f (n / 128)) ++ rest) = _
        rw [if_neg h]
        show parseVarint ((n % 128 + 128) :: (varintEncodeAux f (n / 128) ++ rest)) = _
        unfold parseVarint
        rw [if_neg (by omega : ¬ n % 128 + 128 < 128)]
        have hdiv : n / 128 ≤ f := by
          have := Nat.div_lt_self (by omega : 0 < n) (by norm_num : 1 < 128)
          omega
        rw [ih (n / 128) hdiv rest]
        simp only [Option.map_some']
        have harith : n / 128 * 128 + (n % 128 + 128 - 128) = n := by omega
        rw [harith]

theorem parseVarint_varintEncode (n : Nat) (rest : List Nat) :
    parseVarint (varintEncode n ++ rest) = some (n, rest) :=
  parseVarint_varintEncodeAux n n (le_refl n) rest

theorem parseVarint_consumes :
    ∀ (bs : List Nat) (v : Nat) (r : List Nat),
      parseVarint bs = some (v, r) → r.length < bs.length := by
  intro bs
  induction bs with
  | nil => intro v r h; cases h
  | cons b rest ih =>
      intro v r h
      unfold parseVarint at h
      by_cases hb : b < 128
      · rw [if_pos hb] at h
        injection h with h2
        injection h2 with _ h3
        rw [← h3]
        simp
      · rw [if_neg hb] at h
        cases hrec : parseVarint rest with
        | none => rw [hrec] at h; cases h
        | some p =>
            obtain ⟨v0, r0⟩ := p
            rw [hrec] at h
            simp only [Option.map_some'] at h
            injection h with h2
            injection h2 with _ h3
            have := ih v0 r0 hrec
            rw [← h3]
            simp
            omega

theorem skipFieldBytes_consumes (wt : Nat) (bs r : List Nat)
    (h : skipFieldBytes wt bs = some r) : r.length ≤ bs.length := by
  unfold skipFieldBytes at h
  by_cases h0 : wt = 0
  · rw [if_pos h0] at h
    cases hpv : parseVarint bs with
    | none => rw [hpv] at h; cases h
    | some p =>
        obtain ⟨v0, r0⟩ := p
        rw [hpv] at h
        injection h with h2
        rw [← h2]
        exact Nat.le_of_lt (parseVarint_consumes bs v0 r0 hpv)
  · rw [if_neg h0] at h
    by_cases h1 : wt = 1
    · rw [if_pos h1] at h
      by_cases hl : 8 ≤ bs.length
      · rw [if_pos hl] at h
        injection h with h2
        rw [← h2]
        simp
      · rw [if_neg hl] at h; cases h
    · rw [if_neg h1] at h
      by_cases h2 : wt = 2
      · rw [if_pos h2] at h
        cases hpv : parseVarint bs with
        | none => rw [hpv] at h; cases h
        | some p =>
            obtain ⟨len, r0⟩ := p
            rw [hpv] at h
            simp only [Option.some_bind] at h
            have h4 : (if len ≤ r0.length then some (r0.drop len) else none)
                = some r := h
            by_cases hl : len ≤ r0.length
            · rw [if_pos hl] at h4
              injection h4 with h3
              rw [← h3]
              have := parseVarint_consumes bs len r0 hpv
              simp
              omega
            · rw [if_neg hl] at h4; cases h4
      · rw [if_neg h2] at h
        by_cases h5 : wt = 5
        · rw [if_pos h5] at h
          by_cases hl : 4 ≤ bs.length
          · rw [if_pos hl] at h
            injection h with h3
            rw [← h3]
            simp
          · rw [if_neg hl] at h; cases h
        · rw [if_neg h5] at h; cases h

theorem parseRoundFields_nil (f : Nat) (acc : EncodedARXRound) :
    parseRoundFields f [] acc = some acc := by
  cases f <;> rfl

theorem parseKeyFields_nil (f : Nat) (acc : List EncodedARXRound) :
    parseKeyFields f [] acc = some acc := by
  cases f <;> rfl

theorem parseRoundFields_cons (f b : Nat) (rest : List Nat)
    (acc : EncodedARXRound) :
    parseRoundFields (f + 1) (b :: rest) acc =
      (parseVarint (b :: rest)).bind fun kr =>
        if kr.1 = 8 then
          (parseVarint kr.2).bind fun vr =>
            parseRoundFields f vr.2 ⟨vr.1 % 2 ^ 32, acc.rot, acc.xor⟩
        else if kr.1 = 16 then
          (parseVarint kr.2).bind fun vr =>
            parseRoundFields f vr.2 ⟨acc.add, vr.1 % 2 ^ 32, acc.xor⟩
        else if kr.1 = 24 then
          (parseVarint kr.2).bind fun vr =>
            parseRoundFields f vr.2 ⟨acc.add, acc.rot, vr.1 % 2 ^ 32⟩
        else if kr.1 / 8 = 0 ∨ kr.1 / 8 = 1 ∨ kr.1 / 8 = 2 ∨ kr.1 / 8 = 3 then
          none
        else
          (skipFieldBytes (kr.1 % 8) kr.2).bind fun r2 =>
            parseRoundFields f r2 acc := rfl

theorem parseKeyFields_cons (f b : Nat) (rest : List Nat)
    (acc : List EncodedARXRound) :
    parseKeyFields (f + 1) (b :: rest) acc =
      (parseVarint (b :: rest)).bind fun kr =>
        if kr.1 = 10 then
          (parseVarint kr.2).bind fun lr =>
            if lr.1 ≤ lr.2.length then
              (parseRoundFields (lr.2.take lr.1).length (lr.2.take lr.1)
                  ⟨0, 0, 0⟩).bind fun round =>
                parseKeyFields f (lr.2.drop lr.1) (acc ++ [round])
            else none
        else if kr.1 / 8 = 0 ∨ kr.1 / 8 = 1 then none
        else
          (skipFieldBytes (kr.1 % 8) kr.2).bind fun r2 =>
            parseKeyFields f r2 acc := rfl

theorem parseRoundFields_stable (n : Nat) :
    ∀ (bs : List Nat) (f1 f2 : Nat) (acc : EncodedARXRound),
      bs.length ≤ n → bs.length ≤ f1 → bs.length ≤ f2 →
      parseRoundFields f1 bs acc = parseRoundFields f2 bs acc := by
  induction n with
  | zero =>
      intro bs f1 f2 acc hn _ _
      have hnil : bs = [] := List.eq_nil_of_length_eq_zero (by omega)
      subst hnil
      rw [parseRoundFields_nil, parseRoundFields_nil]
  | succ n ih =>
      intro bs f1 f2 acc hn h1 h2
      cases bs with
      | nil => rw [parseRoundFields_nil, parseRoundFields_nil]
      | cons b rest =>
          have hlen : (b :: rest).length = rest.length + 1 := rfl
          obtain ⟨g1, rfl⟩ : ∃ g, f1 = g + 1 := ⟨f1 - 1, by omega⟩
          obtain ⟨g2, rfl⟩ : ∃ g, f2 = g + 1 := ⟨f2 - 1, by omega⟩
          rw [parseRoundFields_cons, parseRoundFields_cons]
          cases hpv : parseVarint (b :: rest) with
          | none => rfl
          | some kr =>
              obtain ⟨key, r1⟩ := kr
              have hr1 : r1.length < (b :: rest).length :=
                parseVarint_consumes _ _ _ hpv
              simp only [Option.some_bind]
              by_cases h8 : key = 8
              · simp only [if_pos h8]
                cases hv2 : parseVarint r1 with
                | none => rfl
                | some vr =>
                    obtain ⟨v, r2⟩ := vr
                    have hr2 : r2.length < r1.length :=
                      parseVarint_consumes _ _ _ hv2
                    simp only [Option.some_bind]
                    exact ih r2 g1 g2 _ (by omega) (by omega) (by omega)
              · simp only [if_neg h8]
                by_cases h16 : key = 16
                · simp only [if_pos h16]
                  cases hv2 : parseVarint r1 with
                  | none => rfl
                  | some vr =>
                      obtain ⟨v, r2⟩ := vr
                      have hr2 : r2.length < r1.length :=
                        parseVarint_consumes _ _ _ hv2
                      simp only [Option.some_bind]
                      exact ih r2 g1 g2 _ (by omega) (by omega) (by omega)
                · simp only [if_neg h16]
                  by_cases h24 : key = 24
                  · simp only [if_pos h24]
                    cases hv2 : parseVarint r1 with
                    | none => rfl
                    | some vr =>
                        obtain ⟨v, r2⟩ := vr
                        have hr2 : r2.length < r1.length :=
                          parseVarint_consumes _ _ _ hv2
                        simp only [Option.some_bind]
                        exact ih r2 g1 g2 _ (by omega) (by omega) (by omega)
                  · simp only [if_neg h24]
                    by_cases hd : key / 8 = 0 ∨ key / 8 = 1 ∨ key / 8 = 2
                        ∨ key / 8 = 3
                    · simp only [if_pos hd]
                    · simp only [if_neg hd]
                      cases hsk : skipFieldBytes (key % 8) r1 with
                      | none => rfl
                      | some r2 =>
                          have hr2 : r2.length ≤ r1.length :=
                            skipFieldBytes_consumes _ _ _ hsk
                          simp only [Option.some_bind]
                          exact ih r2 g1 g2 _ (by omega) (by omega) (by omega)

theorem parseKeyFields_stable (n : Nat) :
    ∀ (bs : List Nat) (f1 f2 : Nat) (acc : List EncodedARXRound),
      bs.length ≤ n → bs.length ≤ f1 → bs.length ≤ f2 →
      parseKeyFields f1 bs acc = parseKeyFields f2 bs acc := by
  induction n with
  | zero =>
      intro bs f1 f2 acc hn _ _
      have hnil : bs = [] := List.eq_nil_of_length_eq_zero (by omega)
      subst hnil
      rw [parseKeyFields_nil, parseKeyFields_nil]
  | succ n ih =>
      intro bs f1 f2 acc hn h1 h2
      cases bs with
      | nil => rw [parseKeyFields_nil, parseKeyFields_nil]
      | cons b rest =>
          have hlen : (b :: rest).length = rest.length + 1 := rfl
          obtain ⟨g1, rfl⟩ : ∃ g, f1 = g + 1 := ⟨f1 - 1, by omega⟩
          obtain ⟨g2, rfl⟩ : ∃ g, f2 = g + 1 := ⟨f2 - 1, by omega⟩
          rw [parseKeyFields_cons, parseKeyFields_cons]
          cases hpv : parseVarint (b :: rest) with
          | none => rfl
          | some kr =>
              obtain ⟨key, r1⟩ := kr
              have hr1 : r1.length < (b :: rest).length :=
                parseVarint_consumes _ _ _ hpv
              simp only [Option.some_bind]
              by_cases h10 : key = 10
              · simp only [if_pos h10]
                cases hv2 : parseVarint r1 with
                | none => rfl
                | some lr =>
                    obtain ⟨len0, r2⟩ := lr
                    have hr2 : r2.length < r1.length :=
                      parseVarint_consumes _ _ _ hv2
                    simp only [Option.some_bind]
                    by_cases hl : len0 ≤ r2.length
                    · simp only [if_pos hl]
                      cases hrd : parseRoundFields (r2.take len0).length
                          (r2.take len0) ⟨0, 0, 0⟩ with
                      | none => rfl
                      | some round =>
                          simp only [Option.some_bind]
                          have hdrop : (r2.drop len0).length ≤ r2.length := by
                            simp
                          exact ih (r2.drop len0) g1 g2 _ (by omega) (by omega)
                            (by omega)
                    · simp only [if_neg hl]
              · simp only [if_neg h10]
                by_cases hd : key / 8 = 0 ∨ key / 8 = 1
                · simp only [if_pos hd]
                · simp only [if_neg hd]
                  cases hsk : skipFieldBytes (key % 8) r1 with
                  | none => rfl
                  | some r2 =>
                      have hr2 : r2.length ≤ r1.length :=
                        skipFieldBytes_consumes _ _ _ hsk
                      simp only [Option.some_bind]
                      exact ih r2 g1 g2 _ (by omega) (by omega) (by omega)

theorem parseRoundFields_enc_add (v : Nat) (hv : v < 2 ^ 32)
    (rest : List Nat) (rx xx : Nat) :
    parseRoundFields (encodeUint32Field 1 v ++ rest).length
        (encodeUint32Field 1 v ++ rest) ⟨0, rx, xx⟩
      = parseRoundFields rest.length rest ⟨v, rx, xx⟩ := by
  by_cases hz : v = 0
  · subst hz
    rfl
  · unfold encodeUint32Field
    rw [if_neg hz]
    have h18 : varintEncode (1 * 8) = [8] := rfl
    rw [h18]
    have hb : ([8] ++ varintEncode v) ++ rest
        = 8 :: (varintEncode v ++ rest) := by simp
    rw [hb]
    show parseRoundFields ((varintEncode v ++ rest).length + 1)
      (8 :: (varintEncode v ++ rest)) ⟨0, rx, xx⟩ = _
    rw [parseRoundFields_cons]
    have hpv : parseVarint (8 :: (varintEncode v ++ rest))
        = some (8, varintEncode v ++ rest) := by
      unfold parseVarint
      rw [if_pos (by norm_num)]
    rw [hpv]
    simp only [Option.some_bind]
    norm_num
    rw [parseVarint_varintEncode v rest]
    simp only [Option.some_bind]
    have hm : v % 4294967296 = v := Nat.mod_eq_of_lt (by norm_num at hv; exact hv)
    rw [hm]
    exact parseRoundFields_stable (varintEncode v ++ rest).length rest _ _ _
      (by simp) (by simp) (le_refl _)

theorem parseRoundFields_enc_rot (v : Nat) (hv : v < 2 ^ 32)
    (rest : List Nat) (ax xx : Nat) :
    parseRoundFields (encodeUint32Field 2 v ++ rest).length
        (encodeUint32Field 2 v ++ rest) ⟨ax, 0, xx⟩
      = parseRoundFields rest.length rest ⟨ax, v, xx⟩ := by
  by_cases hz : v = 0
  · subst hz
    rfl
  · unfold encodeUint32Field
    rw [if_neg hz]
    have h18 : varintEncode (2 * 8) = [16] := rfl
    rw [h18]
    have hb : ([16] ++ varintEncode v) ++ rest
        = 16 :: (varintEncode v ++ rest) := by simp
    rw [hb]
    show parseRoundFields ((varintEncode v ++ rest).length + 1)
      (16 :: (varintEncode v ++ rest)) ⟨ax, 0, xx⟩ = _
    rw [parseRoundFields_cons]
    have hpv : parseVarint (16 :: (varintEncode v ++ rest))
        = some (16, varintEncode v ++ rest) := by
      unfold parseVarint
      rw [if_pos (by norm_num)]
    rw [hpv]
    simp only [Option.some_bind]
    norm_num
    rw [parseVarint_varintEncode v rest]
    simp only [Option.some_bind]
    have hm : v % 4294967296 = v := Nat.mod_eq_of_lt (by norm_num at hv; exact hv)
    rw [hm]
    exact parseRoundFields_stable (varintEncode v ++ rest).length rest _ _ _
      (by simp) (by simp) (le_refl _)

theorem parseRoundFields_enc_xor (v : Nat) (hv : v < 2 ^ 32)
    (rest : List Nat) (ax rx : Nat) :
    parseRoundFields (encodeUint32Field 3 v ++ rest).length
        (encodeUint32Field 3 v ++ rest) ⟨ax, rx, 0⟩
      = parseRoundFields rest.length rest ⟨ax, rx, v⟩ := by
  by_cases hz : v = 0
  · subst hz
    rfl
  · unfold encodeUint32Field
    rw [if_neg hz]
    have h18 : varintEncode (3 * 8) = [24] := rfl
    rw [h18]
    have hb : ([24] ++ varintEncode v) ++ rest
        = 24 :: (varintEncode v ++ rest) := by simp
    rw [hb]
    show parseRoundFields ((varintEncode v ++ rest).length + 1)
      (24 :: (varintEncode v ++ rest)) ⟨ax, rx, 0⟩ = _
    rw [parseRoundFields_cons]
    have hpv : parseVarint (24 :: (varintEncode v ++ rest))
        = some (24, varintEncode v ++ rest) := by
      unfold parseVarint
      rw [if_pos (by norm_num)]
    rw [hpv]
    simp only [Option.some_bind]
    norm_num
    rw [parseVarint_varintEncode v rest]
    simp only [Option.some_bind]
    have hm : v % 4294967296 = v := Nat.mod_eq_of_lt (by norm_num at hv; exact hv)
    rw [hm]
    exact parseRoundFields_stable (varintEncode v ++ rest).length rest _ _ _
      (by simp) (by simp) (le_refl _)

theorem parseRoundFields_encodeRoundBody (r : EncodedARXRound)
    (ha : r.add < 2 ^ 32) (hr : r.rot < 2 ^ 32) (hx : r.xor < 2 ^ 32) :
    parseRoundFields (encodeRoundBody r).length (encodeRoundBody r) ⟨0, 0, 0⟩
      = some r := by
  obtain ⟨a, ro, x⟩ := r
  unfold encodeRoundBody
  dsimp only
  rw [List.append_assoc, parseRoundFields_enc_add a ha _ 0 0,
    parseRoundFields_enc_rot ro hr _ a 0,
    ← List.append_nil (encodeUint32Field 3 x),
    parseRoundFields_enc_xor x hx [] a ro, parseRoundFields_nil]

theorem parseKeyFields_encodeKeyBytes (rounds : List EncodedARXRound)
    (hv : ∀ r ∈ rounds, r.add < 2 ^ 32 ∧ r.rot < 2 ^ 32 ∧ r.xor < 2 ^ 32) :
    ∀ acc, parseKeyFields (encodeKeyBytes rounds).length
      (encodeKeyBytes rounds) acc = some (acc ++ rounds) := by
  induction rounds with
  | nil =>
      intro acc
      show parseKeyFields 0 [] acc = some (acc ++ [])
      rw [parseKeyFields_nil, List.append_nil]
  | cons r rs ih =>
      intro acc
      have hb : encodeKeyBytes (r :: rs)
          = 10 :: (varintEncode (encodeRoundBody r).length
            ++ (encodeRoundBody r ++ encodeKeyBytes rs)) := by
        unfold encodeKeyBytes
        rw [List.flatMap_cons]
        show 10 :: (varintEncode (encodeRoundBody r).length
            ++ encodeRoundBody r) ++ _ = _
        rw [List.cons_append, List.append_assoc]
      rw [hb]
      show parseKeyFields ((varintEncode (encodeRoundBody r).length
          ++ (encodeRoundBody r ++ encodeKeyBytes rs)).length + 1)
        (10 :: (varintEncode (encodeRoundBody r).length
          ++ (encodeRoundBody r ++ encodeKeyBytes rs))) acc = _
      rw [parseKeyFields_cons]
      have hpv : parseVarint (10 :: (varintEncode (encodeRoundBody r).length
          ++ (encodeRoundBody r ++ encodeKeyBytes rs)))
          = some (10, varintEncode (encodeRoundBody r).length
            ++ (encodeRoundBody r ++ encodeKeyBytes rs)) := by
        unfold parseVarint
        rw [if_pos (by norm_num)]
      rw [hpv]
      simp only [Option.some_bind]
      norm_num
      rw [parseVarint_varintEncode]
      simp only [Option.some_bind]
      rw [if_pos (by rw [List.length_append]; omega)]
      rw [List.take_left, List.drop_left]
      have hvr := hv r (List.mem_cons_self _ _)
      have hmin : (encodeRoundBody r).length
          ⊓ (encodeRoundBody r ++ encodeKeyBytes rs).length
          = (encodeRoundBody r).length := by
        rw [List.length_append]
        exact Nat.min_eq_left (by omega)
      rw [hmin, parseRoundFields_encodeRoundBody r hvr.1 hvr.2.1 hvr.2.2]
      simp only [Option.some_bind]
      have hstab := parseKeyFields_stable
        ((varintEncode (encodeRoundBody r).length).length
          + ((encodeRoundBody r).length + (encodeKeyBytes rs).length))
        (encodeKeyBytes rs)
        ((varintEncode (encodeRoundBody r).length).length
          + ((encodeRoundBody r).length + (encodeKeyBytes rs).length))
        (encodeKeyBytes rs).length (acc ++ [r])
        (by omega) (by omega) (le_refl _)
      rw [hstab, ih (fun x hx => hv x (List.mem_cons_of_mem _ hx)) (acc ++ [r]),
        List.append_assoc]
      rfl

theorem decodeEncodedARXKey_encode (rounds : List EncodedARXRound)
    (hv : ∀ r ∈ rounds, r.add < 2 ^ 32 ∧ r.rot < 2 ^ 32 ∧ r.xor < 2 ^ 32) :
    decodeEncodedARXKey (encodeKeyBytes rounds) = some rounds := by
  unfold decodeEncodedARXKey
  rw [parseKeyFields_encodeKeyBytes rounds hv []]
  rfl

theorem from_buffer_of_decode (buf : List Nat)
    (encRounds : List EncodedARXRound)
    (h : decodeEncodedARXKey buf = some encRounds) :
    from_buffer buf =
      if 8 < encRounds.length then .error .maxRoundsExceeded
      else if (∀ r ∈ encRounds, r.add < 256 ∧ r.rot < 256 ∧ r.xor < 256)
      then .ok (encRounds.map fun r => (⟨r.add, r.rot, r.xor⟩ : ARXRound))
      else .error .fieldOutOfRange := by
  unfold from_buffer
  rw [h]
  rfl

/-- C5: for every ARX key with at most 8 rounds (all fields `u8`),
`from_buffer` applied to `encode_to_buffer` of the key returns `Ok` with
a key whose rounds are identical to the original, and rendering is
deterministic: identical keys render to the same string. -/
theorem arx_key_encode_decode_roundtrip (rounds : List ARXRound)
    (h8 : rounds.length ≤ 8)
    (hv : ∀ r ∈ rounds, r.add < 256 ∧ r.rot < 256 ∧ r.xor < 256) :
    from_buffer (encode_to_buffer rounds) = Except.ok rounds ∧
    (∀ rounds2 : List ARXRound, rounds = rounds2 →
      keyToString rounds = keyToString rounds2) := by
  constructor
  · unfold encode_to_buffer
    have hv32 : ∀ r ∈ rounds.map
        (fun r => (⟨r.add, r.rot, r.xor⟩ : EncodedARXRound)),
        r.add < 2 ^ 32 ∧ r.rot < 2 ^ 32 ∧ r.xor < 2 ^ 32 := by
      intro e he
      rw [List.mem_map] at he
      obtain ⟨r, hr, rfl⟩ := he
      have := hv r hr
      refine ⟨by simp; omega, by simp; omega, by simp; omega⟩
    rw [from_buffer_of_decode _ _ (decodeEncodedARXKey_encode _ hv32)]
    rw [if_neg (by rw [List.length_map]; omega)]
    rw [if_pos (by
      intro e he
      rw [List.mem_map] at he
      obtain ⟨r, hr, rfl⟩ := he
      exact hv r hr)]
    rw [List.map_map]
    exact congrArg Except.ok (List.map_id rounds)
  · intro rounds2 h
    rw [h]

/-- Witness for C5 at the concrete two-round key
`[(add 3, rot 1, xor 0), (add 0, rot 0, xor 5)]`. -/
theorem arx_key_encode_decode_roundtrip_witness :
    from_buffer (encode_to_buffer [⟨3, 1, 0⟩, ⟨0, 0, 5⟩])
        = Except.ok [⟨3, 1, 0⟩, ⟨0, 0, 5⟩] ∧
    (∀ rounds2 : List ARXRound, [⟨3, 1, 0⟩, ⟨0, 0, 5⟩] = rounds2 →
      keyToString [⟨3, 1, 0⟩, ⟨0, 0, 5⟩] = keyToString rounds2) :=
  arx_key_encode_decode_roundtrip [⟨3, 1, 0⟩, ⟨0, 0, 5⟩] (by decide) (by decide)

theorem permuteKeys_rot_lt (ctx : ARXWorkerContext) (k : List ARXRound)
    (hk : k ∈ permuteKeys ctx) : ∀ r ∈ k, r.rot < 8 := by
  unfold permuteKeys at hk
  by_cases h0 : ctx.round_count = 0
  · rw [if_pos h0] at hk
    cases hk
  · rw [if_neg h0] at hk
    rw [List.mem_flatMap] at hk
    obtain ⟨t, ht, hk2⟩ := hk
    rw [List.mem_map] at hk2
    obtain ⟨rest, hrest, rfl⟩ := hk2
    intro r hr
    rcases List.mem_cons.mp hr with rfl | hr2
    · exact ((mem_permuteRoundTriples _ _ _).mp ht).2.2.1
    · exact (((mem_permuteRestKeys _ rest).mp hrest).2 r hr2).2.1

/-- C10: `ARXKey::from_buffer` accepts every well-formed encoded key
with at most 8 rounds whose fields all fit in a `u8`, and rejects every
well-formed encoded key that breaks one of those two conditions; it
performs no range check on `rot`, so the concrete buffer
`[10, 3, 16, 200, 1]` (one round with `rot = 200`) decodes to `Ok` with
a round outside the documented `0..=7` rot range, a key the keyspace
enumerator never visits. -/
theorem arx_from_buffer_no_rot_check :
    (∀ encRounds : List EncodedARXRound,
      (∀ r ∈ encRounds, r.add < 2 ^ 32 ∧ r.rot < 2 ^ 32 ∧ r.xor < 2 ^ 32) →
      ((∃ key, from_buffer (encodeKeyBytes encRounds) = .ok key) ↔
        (encRounds.length ≤ 8 ∧
          ∀ r ∈ encRounds, r.add < 256 ∧ r.rot < 256 ∧ r.xor < 256))) ∧
    from_buffer [10, 3, 16, 200, 1] = .ok [⟨0, 200, 0⟩] ∧
    ¬ ValidRound ⟨0, 200, 0⟩ ∧
    (∀ ctx : ARXWorkerContext,
      [(⟨0, 200, 0⟩ : ARXRound)] ∉ permuteKeys ctx) := by
  refine ⟨?_, rfl, by decide, ?_⟩
  · intro encRounds hv32
    rw [from_buffer_of_decode _ _ (decodeEncodedARXKey_encode _ hv32)]
    constructor
    · rintro ⟨key, hkey⟩
      by_cases hlen : 8 < encRounds.length
      · rw [if_pos hlen] at hkey
        cases hkey
      · rw [if_neg hlen] at hkey
        by_cases hfields : ∀ r ∈ encRounds,
            r.add < 256 ∧ r.rot < 256 ∧ r.xor < 256
        · exact ⟨by omega, hfields⟩
        · rw [if_neg hfields] at hkey
          cases hkey
    · rintro ⟨hlen, hfields⟩
      rw [if_neg (by omega), if_pos hfields]
      exact ⟨_, rfl⟩
  · intro ctx hmem
    have := permuteKeys_rot_lt ctx _ hmem ⟨0, 200, 0⟩ (List.mem_singleton_self _)
    exact absurd this (by decide)

/-- Witness for C10 at a concrete one-round encoded key with
`rot = 300` (fits `u32`, not `u8`), exercising the quantified
well-formedness direction. -/
theorem arx_from_buffer_no_rot_check_witness :
    ((∃ key, from_buffer (encodeKeyBytes [⟨0, 300, 0⟩]) = .ok key) ↔
      (([⟨0, 300, 0⟩] : List EncodedARXRound).length ≤ 8 ∧
        ∀ r ∈ ([⟨0, 300, 0⟩] : List EncodedARXRound),
          r.add < 256 ∧ r.rot < 256 ∧ r.xor < 256)) :=
  arx_from_buffer_no_rot_check.1 [⟨0, 300, 0⟩] (by decide)

/-- `InterleavedMessageData` (`src/data/message.rs`): `message_count`
messages interleaved in a flat buffer indexed `inner[u * M + m]`, with a
per-message `unit_counts` vector. -/
structure InterleavedMessageData where
  message_count : Nat
  inner : List Nat
  unit_counts : List Nat

/-- `InterleavedMessageData::get_unchecked`: read `inner[u * M + m]`
without bounds checks (callers must establish the bounds). -/
def InterleavedMessageData.getUnchecked (msgs : InterleavedMessageData)
    (m u : Nat) : Nat :=
  msgs.inner.getD (u * msgs.message_count + m) 0

/-- The bounds-checked `Index<(usize, usize)>` impl of
`InterleavedMessageData` (`messages[(m, u)]`): assert both bounds, then
read unchecked; a failed assert (panic) is modelled as `none`. -/
def InterleavedMessageData.indexChecked (msgs : InterleavedMessageData)
    (m u : Nat) : Option Nat :=
  if m < msgs.message_count then
    if u < msgs.unit_counts.getD m 0 then some (msgs.getUnchecked m u)
    else none
  else none

/-- The specialization choices the `in` binding's `fn_spec` can make in
`search_task` (`src/bin/search.rs`): fold to a compile-time `u8`
constant, or emit a dynamic call to the checked getter `eval_in`. -/
inductive FnSpecChoice where
  | constU8 (value : Nat)
  | callDynamic
deriving DecidableEq, Repr

/-- The `in` binding's `fn_spec` closure from `search_task`: when both
argument hints are compile-time `Uint` constants, return the literal
byte `messages[(m, u)]` if `m < message_count` and
`u < unit_count(m)`, and a compile-time error otherwise; when the hints
are not both constants, emit a call to `eval_in` (the checked getter). -/
def inBindingSpec (msgs : InterleavedMessageData)
    (hints : Option Nat × Option Nat) : Except String FnSpecChoice :=
  match hints with
  | (some m, some u) =>
      if m < msgs.message_count ∧ u < msgs.unit_counts.getD m 0 then
        .ok (.constU8 (msgs.getUnchecked m u))
      else .error "in() call in expression is always out of bounds"
  | _ => .ok .callDynamic

theorem inBindingSpec_const (msgs : InterleavedMessageData) (m u : Nat) :
    inBindingSpec msgs (some m, some u)
      = if m < msgs.message_count ∧ u < msgs.unit_counts.getD m 0 then
          .ok (.constU8 (msgs.getUnchecked m u))
        else .error "in() call in expression is always out of bounds" := rfl

/-- C6: when both arguments of the `in` binding are compile-time integer
constants, the specialization returns the literal byte
`messages[(m, u)]` exactly when the bounds-checked dynamic binding would
return that byte, and the compile-time "always out of bounds" error
exactly when the dynamic binding would panic; when the arguments are not
both constants it emits the dynamic call to the checked getter. -/
theorem in_binding_specialization (msgs : InterleavedMessageData)
    (m u : Nat) :
    (∀ v, inBindingSpec msgs (some m, some u) = .ok (.constU8 v) ↔
      msgs.indexChecked m u = some v) ∧
    (inBindingSpec msgs (some m, some u)
        = .error "in() call in expression is always out of bounds" ↔
      msgs.indexChecked m u = none) ∧
    (∀ uh, inBindingSpec msgs (none, uh) = .ok .callDynamic) ∧
    (∀ mh, inBindingSpec msgs (some mh, none) = .ok .callDynamic) := by
  refine ⟨?_, ?_, fun uh => rfl, fun mh => rfl⟩
  · intro v
    rw [inBindingSpec_const]
    unfold InterleavedMessageData.indexChecked
    by_cases hb : m < msgs.message_count ∧ u < msgs.unit_counts.getD m 0
    · rw [if_pos hb, if_pos hb.1, if_pos hb.2]
      constructor
      · intro h
        injection h with h2
        injection h2 with h3
        rw [h3]
      · intro h
        injection h with h3
        rw [h3]
    · rw [if_neg hb]
      constructor
      · intro h
        cases h
      · intro h
        by_cases h1 : m < msgs.message_count
        · rw [if_pos h1] at h
          by_cases h2 : u < msgs.unit_counts.getD m 0
          · exact absurd ⟨h1, h2⟩ hb
          · rw [if_neg h2] at h
            cases h
        · rw [if_neg h1] at h
          cases h
  · rw [inBindingSpec_const]
    unfold InterleavedMessageData.indexChecked
    by_cases hb : m < msgs.message_count ∧ u < msgs.unit_counts.getD m 0
    · rw [if_pos hb, if_pos hb.1, if_pos hb.2]
      constructor
      · intro h
        cases h
      · intro h
        cases h
    · rw [if_neg hb]
      constructor
      · intro _
        by_cases h1 : m < msgs.message_count
        · rw [if_pos h1]
          rw [if_neg (fun h2 => hb ⟨h1, h2⟩)]
        · rw [if_neg h1]
      · intro _
        rfl

/-- Witness for C6 at a concrete two-message store. -/
theorem in_binding_specialization_witness :
    (inBindingSpec ⟨2, [7, 8, 9, 10], [2, 2]⟩ (some 0, some 1)
        = .ok (.constU8 9) ↔
      InterleavedMessageData.indexChecked ⟨2, [7, 8, 9, 10], [2, 2]⟩ 0 1
        = some 9) :=
  (in_binding_specialization ⟨2, [7, 8, 9, 10], [2, 2]⟩ 0 1).1 9

/-- C7 counterexample: the claim says an ARX worker context on an empty
add slice reports zero total keys, and that for `W > max + 1` the
excess workers receive empty `(lo, hi)` ranges; on an empty slice
`(a_min, a_max) = (1, 0)` with one round, `get_total_keys` wraps the
`u8` subtraction and reports `524288`, not zero, and at
`max + 1 = 8 < W = 16` the partitioning function panics for worker 0
(`none`) instead of producing a range. -/
theorem arx_empty_partition_claim_counterexample :
    ARXWorkerContext.get_total_keys ⟨1, 1, 0⟩ = 524288 ∧
    ARXWorkerContext.get_total_keys ⟨1, 1, 0⟩ ≠ 0 ∧
    getWorkletSlice 7 0 16 = none := by
  refine ⟨rfl, by decide, rfl⟩

/-- C7 (amended): for every worker count `W` greater than `max + 1` the
partitioning function panics for worker 0 (its exclusive upper bound is
0 and `max - 1` underflows, modelled `none`), so excess workers are
never handed empty ranges; an ARX worker context built directly on an
empty add slice (`a_max < a_min`) reports the wrapped nonzero total
`((256 + a_max - a_min) % 256 + 1) * 2048 * 524288 ^ (N - 1)` rather
than zero, enumerates no keys, and for round counts of at least 2
reports no chunks (completing normally). -/
theorem arx_empty_partition_behavior (maxv W : Nat) (hW : maxv + 1 < W) :
    getWorkletSlice maxv 0 W = none ∧
    (∀ ctx : ARXWorkerContext, ctx.a_max < ctx.a_min →
      1 ≤ ctx.round_count →
      ctx.get_total_keys = ((256 + ctx.a_max - ctx.a_min) % 256 + 1) * 2048
          * 524288 ^ (ctx.round_count - 1) ∧
      ctx.get_total_keys ≠ 0 ∧
      permuteKeys ctx = [] ∧
      (2 ≤ ctx.round_count → permuteChunks ctx = [])) := by
  constructor
  · unfold getWorkletSlice
    simp only []
    rw [if_pos]
    rw [Nat.one_mul]
    exact Nat.div_eq_of_lt hW
  · intro ctx hempty hN
    have htriples : permuteRoundTriples ctx.a_min ctx.a_max = [] := by
      unfold permuteRoundTriples
      have h0 : ctx.a_max + 1 - ctx.a_min = 0 := by omega
      rw [h0]
      rfl
    refine ⟨?_, ?_, ?_, ?_⟩
    · unfold ARXWorkerContext.get_total_keys
      rw [if_neg (by omega : ¬ ctx.round_count = 0)]
      rfl
    · unfold ARXWorkerContext.get_total_keys
      rw [if_neg (by omega : ¬ ctx.round_count = 0)]
      have h1 : 0 < (256 + ctx.a_max - ctx.a_min) % 256 + 1 := by omega
      have h2 : 0 < KEYS_PER_ROUND ^ (ctx.round_count - 1) :=
        Nat.pos_pow_of_pos _ (by norm_num [KEYS_PER_ROUND])
      positivity
    · unfold permuteKeys
      rw [if_neg (by omega : ¬ ctx.round_count = 0), htriples]
      rfl
    · intro h2
      unfold permuteChunks
      rw [if_neg (by omega : ¬ ctx.round_count = 0),
        if_neg (by omega : ¬ ctx.round_count = 1), htriples]
      rfl

/-- Witness for the amended C7 at `max = 7`, `W = 16` and the empty
slice context with 2 rounds. -/
theorem arx_empty_partition_behavior_witness :
    getWorkletSlice 7 0 16 = none ∧
    (∀ ctx : ARXWorkerContext, ctx.a_max < ctx.a_min →
      1 ≤ ctx.round_count →
      ctx.get_total_keys = ((256 + ctx.a_max - ctx.a_min) % 256 + 1) * 2048
          * 524288 ^ (ctx.round_count - 1) ∧
      ctx.get_total_keys ≠ 0 ∧
      permuteKeys ctx = [] ∧
      (2 ≤ ctx.round_count → permuteChunks ctx = [])) :=
  arx_empty_partition_behavior 7 16 (by decide)

/-- Modelled from the spec: Rust `str::parse::<usize>` (standard
library `FromStr` for unsigned integers, external to the repository):
an optional leading plus sign followed by one or more ASCII digits;
empty digit strings, other characters, and values overflowing a 64-bit
`usize` are rejected (the per-digit overflow check is equivalent to a
final bound check because the accumulated value only grows). -/
def parseUsize (s : List Char) : Option Nat :=
  let digits := match s with
    | '+' :: rest => rest
    | _ => s
  if digits = [] then none
  else if digits.all Char.isDigit then
    let v := digits.foldl (fun acc c => acc * 10 + (c.toNat - '0'.toNat)) 0
    if v < 2 ^ 64 then some v else none
  else none

/-- The `ARXCipher` configuration state: the validated round count. -/
structure ARXCipher where
  round_count : Nat
deriving DecidableEq, Repr

/-- The errors of `ARXCipher::new`: `StandardCipherError`'s
`MissingConfiguration` and `BadConfiguration` variants, plus the
propagated integer parse error. -/
inductive CipherSetupError where
  | missingConfiguration
  | badConfiguration (msg : String)
  | parseFailure
deriving DecidableEq, Repr

/-- `ARXCipher::new`: requires a config string; parses it as `usize`
(the `?` operator propagates a parse failure); rejects a parsed round
count of 0 or more than `MAX_ROUNDS = 8` as `BadConfiguration`. -/
def ARXCipher.new (config : Option (List Char)) :
    Except CipherSetupError ARXCipher :=
  match config with
  | none => .error .missingConfiguration
  | some s =>
      match parseUsize s with
      | none => .error .parseFailure
      | some round_count =>
          if round_count = 0 ∨ 8 < round_count then
            .error (.badConfiguration "Round count must be in the range 1..=8")
          else .ok ⟨round_count⟩

theorem ARXCipher.new_some (s : List Char) :
    ARXCipher.new (some s)
      = match parseUsize s with
        | none => .error .parseFailure
        | some round_count =>
            if round_count = 0 ∨ 8 < round_count then
              .error (.badConfiguration
                "Round count must be in the range 1..=8")
            else .ok ⟨round_count⟩ := rfl

/-- C8: `ARXCipher::new` returns `Ok` exactly when a config string is
supplied and parses as an unsigned integer in `1..=8`; it returns
`MissingConfiguration` when the config is absent, `BadConfiguration`
when the parsed round count is 0 or greater than 8, and an error when
the string does not parse as an unsigned integer; every constructed
cipher carries a round count in `1..=8`. -/
theorem arx_cipher_new_validation :
    (∀ config, (∃ c, ARXCipher.new config = .ok c) ↔
      (∃ s n, config = some s ∧ parseUsize s = some n ∧ 1 ≤ n ∧ n ≤ 8)) ∧
    ARXCipher.new none = .error .missingConfiguration ∧
    (∀ s, parseUsize s = none →
      ARXCipher.new (some s) = .error .parseFailure) ∧
    (∀ s n, parseUsize s = some n → (n = 0 ∨ 8 < n) →
      ARXCipher.new (some s)
        = .error (.badConfiguration
            "Round count must be in the range 1..=8")) ∧
    (∀ config c, ARXCipher.new config = .ok c →
      1 ≤ c.round_count ∧ c.round_count ≤ 8) := by
  have hok : ∀ s n, parseUsize s = some n → ¬ (n = 0 ∨ 8 < n) →
      ARXCipher.new (some s) = .ok ⟨n⟩ := by
    intro s n hp hn
    rw [ARXCipher.new_some, hp]
    show (if n = 0 ∨ 8 < n then _ else _) = _
    rw [if_neg hn]
  have herr1 : ∀ s, parseUsize s = none →
      ARXCipher.new (some s) = .error .parseFailure := by
    intro s hp
    rw [ARXCipher.new_some, hp]
  have herr2 : ∀ s n, parseUsize s = some n → (n = 0 ∨ 8 < n) →
      ARXCipher.new (some s)
        = .error (.badConfiguration
            "Round count must be in the range 1..=8") := by
    intro s n hp hn
    rw [ARXCipher.new_some, hp]
    show (if n = 0 ∨ 8 < n then _ else _) = _
    rw [if_pos hn]
  refine ⟨?_, rfl, herr1, herr2, ?_⟩
  · intro config
    constructor
    · rintro ⟨c, hc⟩
      cases config with
      | none => cases hc
      | some s =>
          cases hp : parseUsize s with
          | none => rw [herr1 s hp] at hc; cases hc
          | some n =>
              by_cases hn : n = 0 ∨ 8 < n
              · rw [herr2 s n hp hn] at hc
                cases hc
              · exact ⟨s, n, rfl, hp, by omega, by omega⟩
    · rintro ⟨s, n, rfl, hp, h1, h8⟩
      exact ⟨⟨n⟩, hok s n hp (by omega)⟩
  · intro config c hc
    cases config with
    | none => cases hc
    | some s =>
        cases hp : parseUsize s with
        | none => rw [herr1 s hp] at hc; cases hc
        | some n =>
            by_cases hn : n = 0 ∨ 8 < n
            · rw [herr2 s n hp hn] at hc
              cases hc
            · rw [hok s n hp hn] at hc
              injection hc with h2
              rw [← h2]
              constructor
              · show 1 ≤ n
                omega
              · show n ≤ 8
                omega

/-- Witness for C8: the config string "3" yields a 3-round cipher, and
an absent config yields `MissingConfiguration`. -/
theorem arx_cipher_new_validation_witness :
    (∃ c, ARXCipher.new (some ['3']) = .ok c) ∧
    ARXCipher.new none = .error .missingConfiguration := by
  refine ⟨?_, arx_cipher_new_validation.2.1⟩
  rw [(arx_cipher_new_validation.1 (some ['3']))]
  exact ⟨['3'], 3, rfl, by decide, by decide, by decide⟩

/-- The numeric content of `print_progress` (`src/bin/search.rs`): the
reported percentage and, when a time range is given, the seconds-left
estimate, both exact `rug::Rational` values (the final `to_f32` /
`to_f64` display conversions and the keys-per-second float division are
outside the model). Key counters are arbitrary-precision
`rug::Integer`, modelled as `Int`. `Rational::from((num, den))` panics
when `den == 0`, so a call with a time range and `keys_checked = 0`
panics before reporting, modelled as `none`. -/
def print_progress (hasTimeRange : Bool) (secsSinceStart : ℚ)
    (keys_total keys_checked : ℤ) : Option (ℚ × Option ℚ) :=
  let percent : ℚ :=
    if keys_total = 0 then 100
    else ((keys_checked * 100 : ℤ) : ℚ) / (keys_total : ℚ)
  if hasTimeRange then
    if keys_checked = 0 then none
    else some (percent,
      some (((keys_total - keys_checked : ℤ) : ℚ) / (keys_checked : ℚ)
        * secsSinceStart))
  else some (percent, none)

/-- C9 counterexample: the claim covers every call of the progress
printer, but a call with a time range and `keys_checked = 0` builds a
`rug::Rational` with a zero denominator and panics, reporting nothing:
at `keys_total = 100`, `keys_checked = 0`, 5 elapsed seconds, no
percentage or estimate is reported. -/
theorem print_progress_zero_checked_panics :
    print_progress true 5 100 0 = none := rfl

/-- C9 (amended): for every call of the coordinator's progress printer
whose `keys_checked` is nonzero whenever a time range is given, the
reported percentage equals `100 * keys_checked / keys_total` in exact
rational arithmetic (exactly 100 when `keys_total = 0`), and when a
time range is given the reported estimate equals
`(keys_total - keys_checked) / keys_checked`, an exact rational,
multiplied by the seconds elapsed since the start; key counters are
arbitrary-precision integers; with a time range and `keys_checked = 0`
the printer panics instead of reporting. -/
theorem print_progress_math (hasTR : Bool) (secs : ℚ)
    (total checked : ℤ) (hchk : hasTR = true → checked ≠ 0) :
    ∃ percent rest,
      print_progress hasTR secs total checked = some (percent, rest) ∧
      (total = 0 → percent = 100) ∧
      (total ≠ 0 → percent = 100 * (checked : ℚ) / (total : ℚ)) ∧
      (hasTR = true → rest
        = some (((total : ℚ) - (checked : ℚ)) / (checked : ℚ) * secs)) ∧
      (hasTR = false → rest = none) := by
  unfold print_progress
  cases hasTR with
  | false =>
      refine ⟨_, none, by rw [if_neg (by simp)], ?_, ?_, by simp, fun _ => rfl⟩
      · intro h0
        rw [if_pos h0]
      · intro h0
        rw [if_neg h0]
        push_cast
        ring
  | true =>
      have hc : ¬ checked = 0 := hchk rfl
      refine ⟨_, _, by rw [if_pos rfl, if_neg hc], ?_, ?_, ?_, by simp⟩
      · intro h0
        rw [if_pos h0]
      · intro h0
        rw [if_neg h0]
        push_cast
        ring
      · intro _
        push_cast
        rfl

/-- Witness for the amended C9 at a timed call with 7 of 100 keys
checked after 5 seconds. -/
theorem print_progress_math_witness :
    ∃ percent rest,
      print_progress true 5 100 7 = some (percent, rest) ∧
      ((100 : ℤ) = 0 → percent = 100) ∧
      ((100 : ℤ) ≠ 0 → percent = 100 * ((7 : ℤ) : ℚ) / ((100 : ℤ) : ℚ)) ∧
      (true = true → rest
        = some ((((100 : ℤ) : ℚ) - ((7 : ℤ) : ℚ)) / ((7 : ℤ) : ℚ) * 5)) ∧
      (true = false → rest = none) :=
  print_progress_math true 5 100 7 (fun _ => by decide)

end NoitaEye
